import Mathlib

/-!
Verification development for the arsdk protobuf-subset parser
(`arsdkprotoparser.py`): a shallow embedding of the grammar engine
(pyparsing rules, including the cut semantics of the `-` operator and
java-style comment skipping) and of the model extractor
(`Message`/`Command` construction, `normalizeType` resolution).
Pure functions of the source are translated into executable Lean
definitions; the parse tree is the inductive `Item`, one constructor per
kind of tagged group that the named results of the grammar can produce.
-/

set_option maxHeartbeats 1000000

namespace ArsdkProto

/-- One tagged group of the pyparsing parse tree, as the extractor sees it.
A constructor records the named results that the corresponding grammar
rule attaches (`messageId`/`messageBody`, `enumId`, `oneOfBody`,
`fieldType`/`fieldId`/`fieldNumber`, `packageName`); groups carrying none
of the names inspected by the extractor (option, import, syntax, service,
extend, extensions, reserved) are collapsed to `other`. An enum group
carries, besides its declared name (the `enumId` named result set by the
`ident` of the rule), the list of its value declarations in source
order: the `Dict` wrapping the enum body attaches one further named
result per value, keyed by the value's NAME with the value's integer
literal as payload, and these names merge into the enum's own group —
so an enum value spelled like one of the extractor's reserved result
keys (`packageName`, `messageId`, `messageBody`, `oneOfBody`, `fieldId`,
`fieldNumber`, `enumId`) makes the corresponding key test of the
extractor succeed on the enum item. Enum values carrying field
directives (whose `Dict` payload is a nested result list rather than the
plain literal) are outside the modelled fragment. -/
inductive Item where
  | message (id : String) (body : List Item)
  | enum (id : String) (values : List (String × String))
  | oneOf (body : List Item)
  | field (type : String) (id : String) (number : String)
  | package (name : String)
  | other
deriving Repr

/-- The `Message` of the source: an id and a `fields` dict mapping field name to
field number. The dict is modelled as an insertion-ordered association
list; `addField` mirrors Python `self.fields[id] = number` (update in
place when the key exists, append otherwise). -/
structure Message where
  id : String
  fields : List (String × String)
deriving Repr, DecidableEq

/-- Python dict assignment `d[k] = v` on an association list. -/
def dictInsert : List (String × String) → String → String → List (String × String)
  | [], k, v => [(k, v)]
  | (k', v') :: rest, k, v =>
    if k' == k then (k', v) :: rest else (k', v') :: dictInsert rest k v

/-- The `Message.addField` of the source. -/
def Message.addField (m : Message) (id number : String) : Message :=
  { m with fields := dictInsert m.fields id number }

/-- One entry of `Command.oneOf`: the dict built by `Command.addOneOf`. -/
structure OneOfEntry where
  id : String
  type : String
  number : String
deriving Repr, DecidableEq

/-- The `Command` of the source. -/
structure Command where
  commandId : String
  serviceId : String
  oneOf : List OneOfEntry
deriving Repr, DecidableEq

/-- The `Command.addOneOf` of the source. -/
def Command.addOneOf (c : Command) (id msgType number : String) : Command :=
  { c with oneOf := c.oneOf ++ [⟨id, msgType, number⟩] }

/-! ### Lexical layer

pyparsing matches scannerless at a position, skipping whitespace and
(via `parser.ignore(javaStyleComment)`) java-style comments before each
leaf expression. -/

/-- The `ParseError`: position plus expected-construct message
(pyparsing `ParseException`/`ParseFatalException` payload). -/
structure ParseError where
  loc : Nat
  msg : String
deriving Repr, DecidableEq

/-- Result of matching one grammar expression: success with value and new
position, a backtrackable failure (`ParseException`), or a fatal failure
(`ParseFatalException`, raised after the cut of the `-` operator and
propagated through every enclosing combinator). -/
inductive PRes (α : Type) where
  | ok (a : α) (pos : Nat)
  | fail (e : ParseError)
  | fatal (e : ParseError)
deriving Repr

def isSpaceB (c : Char) : Bool :=
  c == ' ' || c == '\t' || c == '\n' || c == '\r'

def isAlphaAscii (c : Char) : Bool :=
  ('a' ≤ c && c ≤ 'z') || ('A' ≤ c && c ≤ 'Z')

def isDigitAscii (c : Char) : Bool :=
  '0' ≤ c && c ≤ '9'

/-- First character of `Word(alphas + "_.", ...)`. -/
def isIdentStart (c : Char) : Bool :=
  isAlphaAscii c || c == '_' || c == '.'

/-- Continuation character of `Word(..., alphanums + "_.")`. -/
def isIdentCont (c : Char) : Bool :=
  isAlphaAscii c || isDigitAscii c || c == '_' || c == '.'

/-- Characters that may not adjoin a `Keyword` match
(pyparsing default `identChars = alphanums + "_$"`). -/
def isKwChar (c : Char) : Bool :=
  isAlphaAscii c || isDigitAscii c || c == '_' || c == '$'

/-- Skip the rest of a block comment, returning the suffix after the
closing `*/`, or `none` when the comment is unterminated. -/
def dropBlockEnd : List Char → Option (List Char)
  | [] => none
  | '*' :: '/' :: rest => some rest
  | _ :: rest => dropBlockEnd rest

/-- Fueled count of leading characters that are whitespace or java-style
comments (`//...` to end of line, `/* ... */`). -/
def skipCount : Nat → List Char → Nat
  | 0, _ => 0
  | _, [] => 0
  | n + 1, '/' :: '/' :: rest =>
    let dropped := rest.dropWhile (fun c => c != '\n')
    2 + (rest.length - dropped.length) + skipCount n dropped
  | n + 1, '/' :: '*' :: rest =>
    (match dropBlockEnd rest with
     | some rest' => 2 + (rest.length - rest'.length) + skipCount n rest'
     | none => 0)
  | n + 1, c :: rest => if isSpaceB c then 1 + skipCount n rest else 0

/-- Position after skipping ignorables at `pos`. -/
def skipAt (input : List Char) (pos : Nat) : Nat :=
  let rem := input.drop pos
  pos + skipCount (rem.length + 1) rem

/-- The `Suppress` of a single punctuation character. -/
def matchSym (c : Char) (input : List Char) (pos : Nat) : PRes Unit :=
  let p := skipAt input pos
  match input.drop p with
  | c' :: _ =>
    if c' = c then .ok () (p + 1)
    else .fail ⟨p, "Expected " ++ String.mk [c]⟩
  | [] => .fail ⟨p, "Expected " ++ String.mk [c]⟩

/-- The `Word(start, cont)`: maximal munch, at least one character. -/
def matchWord (start cont : Char → Bool) (input : List Char) (pos : Nat) :
    PRes String :=
  let p := skipAt input pos
  match input.drop p with
  | c :: rest =>
    if start c then
      let tail := rest.takeWhile cont
      .ok (String.mk (c :: tail)) (p + 1 + tail.length)
    else .fail ⟨p, "Expected word"⟩
  | [] => .fail ⟨p, "Expected word"⟩

/-- The `ident = Word(alphas + "_.", alphanums + "_.")` of the source. -/
def matchIdent (input : List Char) (pos : Nat) : PRes String :=
  matchWord isIdentStart isIdentCont input pos

/-- The `Keyword(kw)`: literal match bounded by non-keyword characters. -/
def matchKeyword (kw : String) (input : List Char) (pos : Nat) : PRes Unit :=
  let p := skipAt input pos
  let rem := input.drop p
  if rem.take kw.length = kw.data then
    match (rem.drop kw.length).head? with
    | some c =>
      if isKwChar c then .fail ⟨p, "Expected " ++ kw⟩
      else if p = 0 then .ok () (p + kw.length)
      else
        match (input.drop (p - 1)).head? with
        | some c' =>
          if isKwChar c' then .fail ⟨p, "Expected " ++ kw⟩
          else .ok () (p + kw.length)
        | none => .ok () (p + kw.length)
    | none =>
      if p = 0 then .ok () (p + kw.length)
      else
        match (input.drop (p - 1)).head? with
        | some c' =>
          if isKwChar c' then .fail ⟨p, "Expected " ++ kw⟩
          else .ok () (p + kw.length)
        | none => .ok () (p + kw.length)
  else .fail ⟨p, "Expected " ++ kw⟩

/-- The `integer = Regex("[+-]?\d+")`: optional sign, then maximal digits. -/
def matchInteger (input : List Char) (pos : Nat) : PRes String :=
  let p := skipAt input pos
  let rem := input.drop p
  let signLen := match rem.head? with
    | some '+' => 1
    | some '-' => 1
    | _ => 0
  let afterSign := rem.drop signLen
  let digits := afterSign.takeWhile isDigitAscii
  if digits = [] then .fail ⟨p, "Expected integer"⟩
  else .ok (String.mk (rem.take signLen ++ digits)) (p + signLen + digits.length)

/-- Scan the rest of a quoted string after the opening quote `q`,
honouring backslash escapes, refusing a newline before the closing
quote; returns the number of characters consumed including the close. -/
def scanQuote (q : Char) : List Char → Option Nat
  | [] => none
  | '\\' :: _ :: rest => (scanQuote q rest).map (· + 2)
  | c :: rest =>
    if c = q then some 1
    else if c = '\n' then none
    else (scanQuote q rest).map (· + 1)

/-- pyparsing `quotedString`: single-line `"..."` or `'...'`. -/
def matchQuoted (input : List Char) (pos : Nat) : PRes Unit :=
  let p := skipAt input pos
  match input.drop p with
  | c :: rest =>
    if c = '"' || c = '\'' then
      match scanQuote c rest with
      | some n => .ok () (p + 1 + n)
      | none => .fail ⟨p, "Expected quoted string"⟩
    else .fail ⟨p, "Expected quoted string"⟩
  | [] => .fail ⟨p, "Expected quoted string"⟩

/-! ### Grammar combinator helpers

`pBind` sequences (`And`), `pOr` is ordered choice (`MatchFirst`,
which retries on a `ParseException` but lets a `ParseFatalException`
through), `toFatal` is the cut region after the `-` operator, `pManyU`
is `ZeroOrMore` of a suppressed expression. -/

def pBind {α β : Type} (r : PRes α) (f : α → Nat → PRes β) : PRes β :=
  match r with
  | .ok a p => f a p
  | .fail e => .fail e
  | .fatal e => .fatal e

def pOr {α : Type} (r : PRes α) (alt : Unit → PRes α) : PRes α :=
  match r with
  | .fail _ => alt ()
  | r => r

def toFatal {α : Type} : PRes α → PRes α
  | .fail e => .fatal e
  | r => r

def pUnit {α : Type} : PRes α → PRes Unit
  | .ok _ p => .ok () p
  | .fail e => .fail e
  | .fatal e => .fatal e

def pManyU (p : List Char → Nat → PRes Unit) :
    Nat → List Char → Nat → PRes Unit
  | 0, _, pos => .fail ⟨pos, "out of fuel"⟩
  | n + 1, input, pos =>
    match p input pos with
    | .ok _ p' => pManyU p n input p'
    | .fail _ => .ok () pos
    | .fatal e => .fatal e

/-! ### Grammar rules (non-recursive) -/

/-- Alternatives of the `typespec` `oneOf` of primitive type keywords. -/
def primTypes : List String :=
  ["double", "float", "int32", "int64", "uint32", "uint64", "sint32",
   "sint64", "fixed32", "fixed64", "sfixed32", "sfixed64", "bool",
   "string", "bytes"]

/-- Alternatives of the `mapDefn` key-type `oneOf`. -/
def mapKeyTypes : List String :=
  ["int32", "int64", "uint32", "uint64", "sint32", "sint64", "fixed32",
   "fixed64", "sfixed32", "sfixed64", "bool", "string"]

/-- pyparsing `oneOf`: literal alternatives, no trailing boundary check. -/
def matchOneOfLit (lits : List String) (input : List Char) (pos : Nat) :
    PRes String :=
  let p := skipAt input pos
  let rem := input.drop p
  match lits.find? (fun s => rem.take s.length == s.data) with
  | some s => .ok s (p + s.length)
  | none => .fail ⟨p, "Expected one of"⟩

/-- The `mapDefn = MAP_ - LESSER + oneOf(...) + COMMA + ident + GREATER`.
Its contribution to the `fieldType` named result stringifies to its
first token, so the value returned is the literal `map`
(see `extractCmdContent` in the source). -/
def mapDefnP (input : List Char) (pos : Nat) : PRes String :=
  pBind (matchKeyword ("map") input pos) fun _ p1 =>
  toFatal (
    pBind (matchSym '<' input p1) fun _ p2 =>
    pBind (matchOneOfLit mapKeyTypes input p2) fun _ p3 =>
    pBind (matchSym ',' input p3) fun _ p4 =>
    pBind (matchIdent input p4) fun _ p5 =>
    pBind (matchSym '>' input p5) fun _ p6 =>
    .ok ("map") p6)

/-- The `typespec = oneOf(primitives) | mapDefn | ident`. -/
def typespecP (input : List Char) (pos : Nat) : PRes String :=
  match matchOneOfLit primTypes input pos with
  | .fail _ =>
    match mapDefnP input pos with
    | .fail _ => matchIdent input pos
    | r => r
  | r => r

/-- The `rvalue = integer | TRUE_ | FALSE_ | ident`. -/
def rvalueP (input : List Char) (pos : Nat) : PRes Unit :=
  pOr (pUnit (matchInteger input pos)) fun _ =>
  pOr (matchKeyword ("true") input pos) fun _ =>
  pOr (matchKeyword ("false") input pos) fun _ =>
  pUnit (matchIdent input pos)

/-- The `fieldDirective = LBRACK + Group(Optional(LPAR) + ident +
Optional(RPAR) + EQ + Group(rvalue | quotedString)) + RBRACK`. -/
def fieldDirectiveP (input : List Char) (pos : Nat) : PRes Unit :=
  pBind (matchSym '[' input pos) fun _ p1 =>
  let p2 := match matchSym '(' input p1 with | .ok _ p => p | _ => p1
  pBind (matchIdent input p2) fun _ p3 =>
  let p4 := match matchSym ')' input p3 with | .ok _ p => p | _ => p3
  pBind (matchSym '=' input p4) fun _ p5 =>
  pBind (pOr (rvalueP input p5) fun _ => matchQuoted input p5) fun _ p6 =>
  matchSym ']' input p6

/-- The `fieldDefnPrefix = REQUIRED_ | OPTIONAL_ | REPEATED_`, wrapped in
`Optional(...)`: returns the position after the label keyword when one
matches, the original position otherwise. -/
def tryFieldLabel (input : List Char) (pos : Nat) : Nat :=
  match matchKeyword ("required") input pos with
  | .ok _ p => p
  | _ =>
    match matchKeyword ("optional") input pos with
    | .ok _ p => p
    | _ =>
      match matchKeyword ("repeated") input pos with
      | .ok _ p => p
      | _ => pos

/-- The `fieldDefn = Optional(fieldDefnPrefix) + typespec(FIELD_TYPE_RES) +
ident(FIELD_ID_RES) + EQ + integer(FIELD_NB_RES) +
ZeroOrMore(fieldDirective) + SEMI` (no cut: all failures soft). -/
def fieldDefnP (input : List Char) (pos : Nat) : PRes Item :=
  let p0 := tryFieldLabel input pos
  pBind (typespecP input p0) fun ty p1 =>
  pBind (matchIdent input p1) fun fid p2 =>
  pBind (matchSym '=' input p2) fun _ p3 =>
  pBind (matchInteger input p3) fun fnb p4 =>
  pBind (pManyU fieldDirectiveP (input.length + 1) input p4) fun _ p5 =>
  pBind (matchSym ';' input p5) fun _ p6 =>
  .ok (.field ty fid fnb) p6

/-- The `optionDirective = OPTION_ - Optional(LPAR) + ident + Optional(RPAR)
+ EQ + ZeroOrMore(quotedString) + SEMI`. -/
def optionDirP (input : List Char) (pos : Nat) : PRes Item :=
  pBind (matchKeyword ("option") input pos) fun _ p1 =>
  toFatal (
    let p2 := match matchSym '(' input p1 with | .ok _ p => p | _ => p1
    pBind (matchIdent input p2) fun _ p3 =>
    let p4 := match matchSym ')' input p3 with | .ok _ p => p | _ => p3
    pBind (matchSym '=' input p4) fun _ p5 =>
    pBind (pManyU matchQuoted (input.length + 1) input p5) fun _ p6 =>
    pBind (matchSym ';' input p6) fun _ p7 =>
    .ok Item.other p7)

/-- One repetition of `Group(TO_ | COMMA) + integer` in `reservedDefn`. -/
def reservedTailP (input : List Char) (pos : Nat) : PRes Unit :=
  pBind (pOr (matchKeyword ("to") input pos) fun _ => matchSym ',' input pos)
    fun _ p1 =>
  pUnit (matchInteger input p1)

/-- The `reservedDefn = RESERVED_ - integer + ZeroOrMore(Group(TO_ | COMMA)
+ integer) + SEMI`. -/
def reservedDefnP (input : List Char) (pos : Nat) : PRes Item :=
  pBind (matchKeyword ("reserved") input pos) fun _ p1 =>
  toFatal (
    pBind (matchInteger input p1) fun _ p2 =>
    pBind (pManyU reservedTailP (input.length + 1) input p2) fun _ p3 =>
    pBind (matchSym ';' input p3) fun _ p4 =>
    .ok Item.other p4)

/-- One enum body alternative:
`ident + EQ + integer + ZeroOrMore(fieldDirective) + SEMI`; returns the
(name, integer literal) pair that the `Dict` turns into a named result
keyed by the value's name. -/
def enumValueP (input : List Char) (pos : Nat) : PRes (String × String) :=
  pBind (matchIdent input pos) fun vname p1 =>
  pBind (matchSym '=' input p1) fun _ p2 =>
  pBind (matchInteger input p2) fun vnum p3 =>
  pBind (pManyU fieldDirectiveP (input.length + 1) input p3) fun _ p4 =>
  pBind (matchSym ';' input p4) fun _ p5 =>
  .ok (vname, vnum) p5

/-- Enum body item: value definition, option directive or reserved
definition, in the source's alternative order. An option or reserved
group contributes a `Dict` key (`option` / `reserved`) that the
extractor never inspects, so only value definitions are recorded. -/
def enumItemP (input : List Char) (pos : Nat) :
    PRes (Option (String × String)) :=
  match enumValueP input pos with
  | .ok pr p => .ok (some pr) p
  | .fatal e => .fatal e
  | .fail _ =>
    match optionDirP input pos with
    | .ok _ p => .ok none p
    | .fatal e => .fatal e
    | .fail _ =>
      match reservedDefnP input pos with
      | .ok _ p => .ok none p
      | .fatal e => .fatal e
      | .fail e => .fail e

/-- The `ZeroOrMore` of the enum body, collecting the value pairs. -/
def enumBodyLoop : Nat → List Char → Nat → List (String × String) →
    PRes (List (String × String))
  | 0, _, pos, _ => .fail ⟨pos, "out of fuel"⟩
  | n + 1, input, pos, acc =>
    match enumItemP input pos with
    | .ok (some pr) p' => enumBodyLoop n input p' (acc ++ [pr])
    | .ok none p' => enumBodyLoop n input p' acc
    | .fail _ => .ok acc pos
    | .fatal e => .fatal e

/-- The `enumDefn = ENUM_ - ident(ENUM_ID_RES) + LBRACE + Dict(ZeroOrMore(
Group(...))) + RBRACE`. Besides the `enumId` named result, the produced
item records the value declarations whose names the `Dict` injects as
named results on this same group (see the `Item` doc comment). Enum
values with field directives are accepted by the grammar but their
nested `Dict` payloads are not modelled. -/
def enumDefnP (input : List Char) (pos : Nat) : PRes Item :=
  pBind (matchKeyword ("enum") input pos) fun _ p1 =>
  toFatal (
    pBind (matchIdent input p1) fun eid p2 =>
    pBind (matchSym '{' input p2) fun _ p3 =>
    pBind (enumBodyLoop (input.length + 1) input p3 []) fun vs p4 =>
    pBind (matchSym '}' input p4) fun _ p5 =>
    .ok (Item.enum eid vs) p5)

/-- The `extensionsDefn = EXTENSIONS_ - integer + TO_ + integer + SEMI`. -/
def extensionsDefnP (input : List Char) (pos : Nat) : PRes Item :=
  pBind (matchKeyword ("extensions") input pos) fun _ p1 =>
  toFatal (
    pBind (matchInteger input p1) fun _ p2 =>
    pBind (matchKeyword ("to") input p2) fun _ p3 =>
    pBind (matchInteger input p3) fun _ p4 =>
    pBind (matchSym ';' input p4) fun _ p5 =>
    .ok Item.other p5)

/-- The `oneOfBody = Group(ZeroOrMore(Group(fieldDefn)))`. -/
def oneOfBodyLoop : Nat → List Char → Nat → List Item → PRes (List Item)
  | 0, _, pos, _ => .fail ⟨pos, "out of fuel"⟩
  | n + 1, input, pos, acc =>
    match fieldDefnP input pos with
    | .ok it p' => oneOfBodyLoop n input p' (acc ++ [it])
    | .fail _ => .ok acc pos
    | .fatal e => .fatal e

/-- The `oneOfDefn = ONEOF_ - ident + LBRACE + oneOfBody(ONEOF_BODY_RES) +
RBRACE`. -/
def oneOfDefnP (input : List Char) (pos : Nat) : PRes Item :=
  pBind (matchKeyword ("oneof") input pos) fun _ p1 =>
  toFatal (
    pBind (matchIdent input p1) fun _ p2 =>
    pBind (matchSym '{' input p2) fun _ p3 =>
    pBind (oneOfBodyLoop (input.length + 1) input p3 []) fun body p4 =>
    pBind (matchSym '}' input p4) fun _ p5 =>
    .ok (Item.oneOf body) p5)

/-- The `methodDefn = RPC_ - ident + LPAR + Optional(ident) + RPAR +
RETURNS_ + LPAR + Optional(ident) + RPAR` (no terminator in the rule). -/
def methodDefnP (input : List Char) (pos : Nat) : PRes Unit :=
  pBind (matchKeyword ("rpc") input pos) fun _ p1 =>
  toFatal (
    pBind (matchIdent input p1) fun _ p2 =>
    pBind (matchSym '(' input p2) fun _ p3 =>
    let p4 := match matchIdent input p3 with | .ok _ p => p | _ => p3
    pBind (matchSym ')' input p4) fun _ p5 =>
    pBind (matchKeyword ("returns") input p5) fun _ p6 =>
    pBind (matchSym '(' input p6) fun _ p7 =>
    let p8 := match matchIdent input p7 with | .ok _ p => p | _ => p7
    pBind (matchSym ')' input p8) fun _ p9 =>
    .ok () p9)

/-- The `serviceDefn = SERVICE_ - ident + LBRACE + ZeroOrMore(Group(
methodDefn)) + RBRACE`. -/
def serviceDefnP (input : List Char) (pos : Nat) : PRes Item :=
  pBind (matchKeyword ("service") input pos) fun _ p1 =>
  toFatal (
    pBind (matchIdent input p1) fun _ p2 =>
    pBind (matchSym '{' input p2) fun _ p3 =>
    pBind (pManyU methodDefnP (input.length + 1) input p3) fun _ p4 =>
    pBind (matchSym '}' input p4) fun _ p5 =>
    .ok Item.other p5)

/-- The `syntaxDefn = SYNTAX_ + EQ - quotedString + SEMI`
(the cut sits after `EQ`). -/
def synDefnP (input : List Char) (pos : Nat) : PRes Item :=
  pBind (matchKeyword ("syntax") input pos) fun _ p1 =>
  pBind (matchSym '=' input p1) fun _ p2 =>
  toFatal (
    pBind (matchQuoted input p2) fun _ p3 =>
    pBind (matchSym ';' input p3) fun _ p4 =>
    .ok Item.other p4)

/-- The `packageDirective = PACKAGE_ - ident(PACKAGE_NAME_RES) + SEMI`. -/
def packageDirP (input : List Char) (pos : Nat) : PRes Item :=
  pBind (matchKeyword ("package") input pos) fun _ p1 =>
  toFatal (
    pBind (matchIdent input p1) fun pname p2 =>
    pBind (matchSym ';' input p2) fun _ p3 =>
    .ok (Item.package pname) p3)

/-- The `importDirective = IMPORT_ - quotedString + SEMI`. -/
def impDirP (input : List Char) (pos : Nat) : PRes Item :=
  pBind (matchKeyword ("import") input pos) fun _ p1 =>
  toFatal (
    pBind (matchQuoted input p1) fun _ p2 =>
    pBind (matchSym ';' input p2) fun _ p3 =>
    .ok Item.other p3)

/-! ### Recursive grammar rules (`messageBody` and friends) -/

mutual

/-- The `messageDefn = MESSAGE_ - ident(MSG_ID_RES) + LBRACE +
messageBody(MSG_BODY_RES) + RBRACE`. -/
def msgDefnP : Nat → List Char → Nat → PRes Item
  | 0, _, pos => .fail ⟨pos, "out of fuel"⟩
  | fuel + 1, input, pos =>
    pBind (matchKeyword ("message") input pos) fun _ p1 =>
    toFatal (
      pBind (matchIdent input p1) fun mid p2 =>
      pBind (matchSym '{' input p2) fun _ p3 =>
      pBind (msgBodyP fuel input p3) fun body p4 =>
      pBind (matchSym '}' input p4) fun _ p5 =>
      .ok (Item.message mid body) p5)
termination_by structural fuel => fuel

/-- The `messageExtension = EXTEND_ - ident + LBRACE + messageBody + RBRACE`
(the body here carries no named result, so the extractor ignores it). -/
def extendDefnP : Nat → List Char → Nat → PRes Item
  | 0, _, pos => .fail ⟨pos, "out of fuel"⟩
  | fuel + 1, input, pos =>
    pBind (matchKeyword ("extend") input pos) fun _ p1 =>
    toFatal (
      pBind (matchIdent input p1) fun _ p2 =>
      pBind (matchSym '{' input p2) fun _ p3 =>
      pBind (msgBodyP fuel input p3) fun _ p4 =>
      pBind (matchSym '}' input p4) fun _ p5 =>
      .ok Item.other p5)
termination_by structural fuel => fuel

/-- The `messageBody = Group(ZeroOrMore(Group(alternatives)))`. -/
def msgBodyP : Nat → List Char → Nat → PRes (List Item)
  | 0, _, pos => .fail ⟨pos, "out of fuel"⟩
  | fuel + 1, input, pos => msgBodyLoop fuel input pos []
termination_by structural fuel => fuel

/-- The `ZeroOrMore` loop of `messageBody`. -/
def msgBodyLoop : Nat → List Char → Nat → List Item → PRes (List Item)
  | 0, _, pos, _ => .fail ⟨pos, "out of fuel"⟩
  | fuel + 1, input, pos, acc =>
    match msgItemP fuel input pos with
    | .ok it p' => msgBodyLoop fuel input p' (acc ++ [it])
    | .fail _ => .ok acc pos
    | .fatal e => .fatal e
termination_by structural fuel => fuel

/-- One `messageBody` alternative, in the source's `MatchFirst` order:
`fieldDefn | enumDefn | messageDefn | extensionsDefn | reservedDefn |
messageExtension | oneOfDefn | optionDirective`. -/
def msgItemP : Nat → List Char → Nat → PRes Item
  | 0, _, pos => .fail ⟨pos, "out of fuel"⟩
  | fuel + 1, input, pos =>
    match fieldDefnP input pos with
    | .fail _ =>
      match enumDefnP input pos with
      | .fail _ =>
        match msgDefnP fuel input pos with
        | .fail _ =>
          match extensionsDefnP input pos with
          | .fail _ =>
            match reservedDefnP input pos with
            | .fail _ =>
              match extendDefnP fuel input pos with
              | .fail _ =>
                match oneOfDefnP input pos with
                | .fail _ => optionDirP input pos
                | r => r
              | r => r
            | r => r
          | r => r
        | r => r
      | r => r
    | r => r
termination_by structural fuel => fuel

end

/-- The `topLevelStatement`, in the source's `MatchFirst` order. -/
def topStmtP (fuel : Nat) (input : List Char) (pos : Nat) : PRes Item :=
  match msgDefnP fuel input pos with
  | .fail _ =>
    match extendDefnP fuel input pos with
    | .fail _ =>
      match enumDefnP input pos with
      | .fail _ =>
        match serviceDefnP input pos with
        | .fail _ =>
          match impDirP input pos with
          | .fail _ =>
            match optionDirP input pos with
            | .fail _ =>
              match synDefnP input pos with
              | .fail _ => packageDirP input pos
              | r => r
            | r => r
          | r => r
        | r => r
      | r => r
    | r => r
  | r => r

/-- The `ZeroOrMore(topLevelStatement)` with `parseAll=False`: stops (without
error) at the first position where no top-level statement matches; a
fatal error aborts everything. -/
def topLoop : Nat → List Char → Nat → List Item → PRes (List Item)
  | 0, _, pos, _ => .fail ⟨pos, "out of fuel"⟩
  | fuel + 1, input, pos, acc =>
    match topStmtP fuel input pos with
    | .ok it p' => topLoop fuel input p' (acc ++ [it])
    | .fail _ => .ok acc pos
    | .fatal e => .fatal e

/-- Fuel bound: each unit of nesting depth and each parsed item consumes
a bounded amount of fuel, so this is ample for any input. -/
def parseFuel (input : List Char) : Nat := 8 * input.length + 64

/-- The grammar engine applied to the full source text: the parse
performed by `ProtoParser.parseFile` before extraction begins. -/
def parseProtoText (text : String) : Except ParseError (List Item) :=
  let input := text.data
  match topLoop (parseFuel input) input 0 [] with
  | .ok items _ => .ok items
  | .fail e => .error e
  | .fatal e => .error e

/-! ### Model extractor -/

/-- The value of the last declaration with key `k` in a flat declaration
list, `none` when the key never occurs. This is also the lookup
semantics of pyparsing named results: when several entries share a name,
indexing the results object returns the LAST one added, so on an enum
item a `Dict`-injected value name shadows an earlier one (and an
injected `enumId` shadows the declared enum name, which the `ident` of
the rule adds first). -/
def lastVal : List (String × String) → String → Option String
  | [], _ => none
  | pr :: rest, k =>
    match lastVal rest k with
    | some v => some v
    | none => if pr.1 == k then some pr.2 else none

/-- The `messageId` payload an enum item exposes when its `Dict`-injected
names make both the `messageId` and the `messageBody` key tests of the
extractor succeed (`MSG_ID_RES in item and MSG_BODY_RES in item`). -/
def enumInjectedMsgId (vs : List (String × String)) : Option String :=
  match lastVal vs ("messageId"), lastVal vs ("messageBody") with
  | some mid, some _ => some mid
  | _, _ => none

/-- The value of the `enumId` key on an enum item: the declared name,
unless a value named `enumId` was added later and shadows it. -/
def enumEffectiveId (n : String) (vs : List (String × String)) : String :=
  match lastVal vs ("enumId") with
  | some v => v
  | none => n

/-- The (fieldId, fieldNumber) payload an enum item exposes when its
`Dict`-injected names make both the `fieldId` and the `fieldNumber` key
tests of the extractor succeed. -/
def enumInjectedField (vs : List (String × String)) :
    Option (String × String) :=
  match lastVal vs ("fieldId"), lastVal vs ("fieldNumber") with
  | some fid, some fnb => some (fid, fnb)
  | _, _ => none

/-- The named results the extractor inspects; an enum value using one of
these spellings as its name triggers the corresponding extractor
branch. -/
def resKeys : List String :=
  ["packageName", "messageId", "messageBody", "oneOfBody", "fieldId",
   "fieldNumber", "enumId"]

/-- Does an enum value list avoid all reserved result names? -/
def enumValuesClean (vs : List (String × String)) : Bool :=
  vs.all (fun pr => !(resKeys.contains pr.1))

/-- The `packageName` named result an item carries, if any: a package
directive carries its declared package, and an enum item carries the
payload of a value named `packageName`. -/
def itemPackageName : Item → Option String
  | .package n => some n
  | .enum _ vs => lastVal vs ("packageName")
  | _ => none

/-- Python `s.split('.')` on the character list of a string. -/
def splitOnDot : List Char → List (List Char)
  | [] => [[]]
  | '.' :: rest => [] :: splitOnDot rest
  | c :: rest =>
    match splitOnDot rest with
    | h :: t => (c :: h) :: t
    | [] => [[c]]

/-- Python `str.capitalize`: first character upper-cased, the remainder
lower-cased. -/
def pyCapitalizeL : List Char → List Char
  | [] => []
  | c :: cs => c.toUpper :: cs.map Char.toLower

/-- Python `string.capwords(s, ".")`: split on `.`, capitalize each
segment, join with `.`. -/
def pyCapwordsDot (s : String) : String :=
  String.mk (List.intercalate ['.'] ((splitOnDot s.data).map pyCapitalizeL))

/-- Python `s.replace(".", "_")`. -/
def dotsToUnderscores (s : String) : String :=
  String.mk (s.data.map (fun c => if c = '.' then '_' else c))

/-- The `ProtoParser.getPackageName`: the `packageName` named result of the
first item carrying one — a package directive, or an enum with a value
named `packageName` — empty string otherwise. -/
def getPackageName : List Item → String
  | [] => ""
  | it :: rest =>
    match itemPackageName it with
    | some v => v
    | none => getPackageName rest

/-- The `ProtoParser.getBaseName`:
`string.capwords(packageName, ".").replace(".", "_")` for the first item
carrying a `packageName` named result, empty string otherwise. -/
def getBaseName : List Item → String
  | [] => ""
  | it :: rest =>
    match itemPackageName it with
    | some v => dotsToUnderscores (pyCapwordsDot v)
    | none => getBaseName rest

mutual

/-- The body of the `for item in resultItem` loop of
`ProtoParser._extractMessages`, for one item: a message definition has
its body processed first (children appended to the flat list, its own
fields accumulated on the fresh `Message`) and is then appended itself;
a `oneof` body is walked with the unchanged parent; a field definition
is added to the parent message when one exists. An enum item is tested
against ALL four key checks: when its `Dict`-injected names supply both
`messageId` and `messageBody`, a phantom message is appended first (the
recursion into the injected payload — a plain string — matches no key
and is a no-op, so the phantom keeps empty fields); the enum placeholder
is then appended under its effective `enumId`; and an injected
`fieldId`/`fieldNumber` pair is added to the parent message's fields.
Returns (flat message list, parent after the Python in-place
mutation). -/
def extractItem : Item → List Message → String → Option Message →
    List Message × Option Message
  | .message n body, msgs, base, parent =>
    let newId :=
      match parent with
      | none => base ++ "_" ++ n
      | some p => p.id ++ "." ++ n
    let r := extractList body msgs newId (some ⟨newId, []⟩)
    let child :=
      match r.2 with
      | some c => c
      | none => ⟨newId, []⟩
    (r.1 ++ [child], parent)
  | .enum n vs, msgs, base, parent =>
    let qualify := fun (x : String) =>
      match parent with
      | none => base ++ "_" ++ x
      | some p => p.id ++ "." ++ x
    let msgs1 :=
      match enumInjectedMsgId vs with
      | some mid => msgs ++ [⟨qualify mid, []⟩]
      | none => msgs
    let msgs2 := msgs1 ++ [⟨qualify (enumEffectiveId n vs), []⟩]
    let parent' :=
      match enumInjectedField vs with
      | some pr =>
        (match parent with
         | some p => some (p.addField pr.1 pr.2)
         | none => none)
      | none => parent
    (msgs2, parent')
  | .oneOf body, msgs, base, parent => extractList body msgs base parent
  | .field _ fid fnb, msgs, _, parent =>
    let parent' :=
      match parent with
      | some p => some (p.addField fid fnb)
      | none => none
    (msgs, parent')
  | .package _, msgs, _, parent => (msgs, parent)
  | .other, msgs, _, parent => (msgs, parent)

/-- The `ProtoParser._extractMessages`: the loop over a result-item list,
threading the Python mutable accumulation as the returned pair
(flat message list, updated parent). -/
def extractList : List Item → List Message → String → Option Message →
    List Message × Option Message
  | [], msgs, _, parent => (msgs, parent)
  | it :: rest, msgs, base, parent =>
    let r := extractItem it msgs base parent
    extractList rest r.1 base r.2

end

/-- The `ProtoParser.extractMessages`. -/
def extractMessages (parseResults : List Item) (baseName : String) :
    List Message :=
  (extractList parseResults [] baseName none).1

/-- The `ProtoParser.normalizeType`: exact match against
`parentType ++ "." ++ messageType` first, then the first message whose
id ends with `"_" ++ messageType`, else the raw token unchanged. -/
def pyEndsWith (s suffix : String) : Bool :=
  suffix.data.isSuffixOf s.data

def normalizeType (messageType parentType : String)
    (messages : List Message) : String :=
  match messages.find? (fun m => m.id == parentType ++ "." ++ messageType) with
  | some m => m.id
  | none =>
    match messages.find? (fun m => pyEndsWith m.id ("_" ++ messageType)) with
    | some m => m.id
    | none => messageType

/-- The inner loop body of `ProtoParser.extractCmdContent`: one item of a
`oneOfBody`; a field definition appends one `oneOf` entry with its type
resolved by `normalizeType` against the command id. -/
def extractCmdOneOf (messages : List Message) (c : Command) (oi : Item) :
    Command :=
  match oi with
  | .field ty fid fnb =>
    c.addOneOf fid (normalizeType ty c.commandId messages) fnb
  | _ => c

/-- The outer loop body of `ProtoParser.extractCmdContent`: items that
carry a `oneOfBody` named result have their body walked, everything else
is skipped. -/
def extractCmdStep (messages : List Message) (c : Command) (it : Item) :
    Command :=
  match it with
  | .oneOf body => body.foldl (extractCmdOneOf messages) c
  | _ => c

/-- The `ProtoParser.extractCmdContent`: for every `oneOfBody` named result
of the container's body, append one `oneOf` entry per field definition,
with the type resolved by `normalizeType` against the command id. -/
def extractCmdContent (resultItem : List Item) (cmd : Command)
    (messages : List Message) : Command :=
  resultItem.foldl (extractCmdStep messages) cmd

/-- The loop of `ProtoParser.extractCmd`: every top-level item carrying
`messageId` and `messageBody` named results whose `messageId` payload
equals `name` unconditionally overwrites the accumulator with a freshly
built `Command` — a message definition whose declared name matches, or
an enum whose `Dict`-injected names supply a matching `messageId`
payload and a `messageBody` key (the walk of the injected payload, a
plain string, finds no `oneOfBody` key and leaves the `oneOf` list
empty). -/
def extractCmdAux (name packageName baseName : String)
    (messages : List Message) : List Item → Option Command → Option Command
  | [], cmd => cmd
  | .message mid body :: rest, cmd =>
    if mid == name then
      let c := extractCmdContent body
        ⟨baseName ++ "_" ++ mid, packageName ++ "." ++ mid, []⟩ messages
      extractCmdAux name packageName baseName messages rest (some c)
    else extractCmdAux name packageName baseName messages rest cmd
  | .enum _ vs :: rest, cmd =>
    (match enumInjectedMsgId vs with
     | some mid =>
       if mid == name then
         extractCmdAux name packageName baseName messages rest
           (some ⟨baseName ++ "_" ++ mid, packageName ++ "." ++ mid, []⟩)
       else extractCmdAux name packageName baseName messages rest cmd
     | none => extractCmdAux name packageName baseName messages rest cmd)
  | _ :: rest, cmd => extractCmdAux name packageName baseName messages rest cmd

/-- The `ProtoParser.extractCmd`. -/
def extractCmd (name : String) (parseResults : List Item)
    (packageName baseName : String) (messages : List Message) :
    Option Command :=
  extractCmdAux name packageName baseName messages parseResults none

/-- The `ProtoParser.parseFile` on the materialized source text: grammar
engine first (a parse error aborts with no model), then package/base
name, message extraction, and the two container extractions. -/
def parseFile (text : String) :
    Except ParseError (List Message × Option Command × Option Command) :=
  match parseProtoText text with
  | .error e => .error e
  | .ok parseResults =>
    let packageName := getPackageName parseResults
    let baseName := getBaseName parseResults
    let messages := extractMessages parseResults baseName
    let command := extractCmd ("Command") parseResults packageName baseName
      messages
    let event := extractCmd ("Event") parseResults packageName baseName
      messages
    .ok (messages, command, event)

/-! ### Specification-side definitions -/


mutual

/-- The field declarations a message body contributes to its own message,
in traversal order: direct field definitions plus, recursively, the field
definitions of its `oneof` bodies; declarations inside nested message or
enum definitions are excluded. -/
def fieldDefs : List Item → List (String × String)
  | [] => []
  | it :: rest => fieldDefsItem it ++ fieldDefs rest

def fieldDefsItem : Item → List (String × String)
  | .field _ fid fnb => [(fid, fnb)]
  | .oneOf b => fieldDefs b
  | _ => []

end


mutual

/-- The fields dict a message body leaves on its own message, starting
from `acc`: field definitions (directly or through `oneof` bodies) are
inserted with dict-assignment semantics; nested message and enum bodies
contribute nothing. -/
def directFields : List Item → List (String × String) → List (String × String)
  | [], acc => acc
  | it :: rest, acc => directFields rest (directFieldsItem it acc)

def directFieldsItem : Item → List (String × String) → List (String × String)
  | .field _ fid fnb, acc => dictInsert acc fid fnb
  | .oneOf b, acc => directFields b acc
  | _, acc => acc

end


mutual

/-- Message and enum names declared in one scope (one message body or the
top level), looking through `oneof` bodies, which introduce no scope of
their own. -/
def scopeNames : List Item → List String
  | [] => []
  | it :: rest => scopeNamesItem it ++ scopeNames rest

def scopeNamesItem : Item → List String
  | .message n _ => [n]
  | .enum n _ => [n]
  | .oneOf b => scopeNames b
  | _ => []

end


mutual

/-- Modelled from the spec (§3, §4.2): the qualified ids of all message
and enum definitions in post-order — for a message definition the ids of
its nested definitions are listed before its own id; a definition named
`n` in context `(pre, sep)` gets id `pre ++ sep ++ n`, where the top
level uses the root name and separator `_` and a nested level uses the
parent id and separator `.`. An enum item additionally lists, before its
own id, the phantom message id its `Dict`-injected `messageId` payload
produces (same id form, same position in the order as the program's
append), and its own id uses the effective `enumId` payload. -/
def specIds : List Item → String → String → List String
  | [], _, _ => []
  | it :: rest, pre, sep => specIdsItem it pre sep ++ specIds rest pre sep

def specIdsItem : Item → String → String → List String
  | .message n b, pre, sep =>
    specIds b (pre ++ sep ++ n) (".") ++ [pre ++ sep ++ n]
  | .enum n vs, pre, sep =>
    (match enumInjectedMsgId vs with
     | some mid => [pre ++ sep ++ mid]
     | none => [])
    ++ [pre ++ sep ++ enumEffectiveId n vs]
  | .oneOf b, pre, sep => specIds b pre sep
  | _, _, _ => []

end

mutual

/-- The full update a result-item list performs on the current parent
message's fields dict: field definitions (directly or through `oneof`
bodies) and the `fieldId`/`fieldNumber` payloads injected by enum value
names are inserted with dict-assignment semantics; nested message and
enum bodies contribute nothing else. -/
def updFields : List Item → List (String × String) → List (String × String)
  | [], acc => acc
  | it :: rest, acc => updFields rest (updFieldsItem it acc)

def updFieldsItem : Item → List (String × String) → List (String × String)
  | .field _ fid fnb, acc => dictInsert acc fid fnb
  | .oneOf b, acc => updFields b acc
  | .enum _ vs, acc =>
    (match enumInjectedField vs with
     | some pr => dictInsert acc pr.1 pr.2
     | none => acc)
  | _, acc => acc

end

/-- Naming-context prefix corresponding to `_extractMessages`'s
`parentMessage is None` test. -/
def ctxPre (base : String) : Option Message → String
  | none => base
  | some p => p.id

/-- Naming-context separator: `_` at top level, `.` below a parent. -/
def ctxSep : Option Message → String
  | none => "_"
  | some _ => "."

/-- The parent message after a result-item list has been processed:
unchanged id, fields extended by the list's own field declarations and
enum-injected field entries. -/
def updParent : List Item → Option Message → Option Message
  | _, none => none
  | items, some m => some ⟨m.id, updFields items m.fields⟩

def dotFreeB (s : String) : Bool := s.data.all (fun c => c != '.')

def isFieldItem : Item → Bool
  | .field _ _ _ => true
  | _ => false

def nodupB : List String → Bool
  | [] => true
  | s :: rest => !(rest.contains s) && nodupB rest

mutual

/-- Well-formedness of a result-item list, used as hypothesis for the id
uniqueness property: every declared message/enum name is dot-free, the
names declared in each message-body scope are pairwise distinct, `oneof`
bodies contain only field definitions (which is what the grammar
produces, since `oneOfBody` is a `ZeroOrMore` of `fieldDefn` only), and
no enum value is named with one of the extractor's reserved result keys
(such a value would inject a phantom message id or shadow the enum's own
id, see the counterexamples on the claims). -/
def wfItems : List Item → Bool
  | [] => true
  | it :: rest => wfItem it && wfItems rest

def wfItem : Item → Bool
  | .message n b => dotFreeB n && nodupB (scopeNames b) && wfItems b
  | .enum n vs => dotFreeB n && enumValuesClean vs
  | .oneOf b => b.all isFieldItem
  | .field _ _ _ => true
  | .package _ => true
  | .other => true

end

/-- Well-formedness including distinctness of the top-level scope. -/
def wfTop (items : List Item) : Bool :=
  nodupB (scopeNames items) && wfItems items

mutual

/-- No item reachable without entering a nested message scope injects an
enum-derived entry into the current parent's fields dict: every enum
(directly in the list or inside a `oneof` body) lacks a
`fieldId`/`fieldNumber` payload pair. Under this condition the full
fields update `updFields` coincides with `directFields`. -/
def fieldsClean : List Item → Bool
  | [] => true
  | it :: rest => fieldsCleanItem it && fieldsClean rest

def fieldsCleanItem : Item → Bool
  | .enum _ vs => (enumInjectedField vs).isNone
  | .oneOf b => fieldsClean b
  | _ => true

end

/-- Dict lookup on the association list representing `Message.fields`. -/
def fieldsGet (fs : List (String × String)) (k : String) : Option String :=
  (fs.find? (fun pr => pr.1 == k)).map (fun pr => pr.2)

/-- Uncurried dict assignment, for folding a declaration list into a
fields dict. -/
def dictInsertPair (acc : List (String × String)) (pr : String × String) :
    List (String × String) :=
  dictInsert acc pr.1 pr.2

/-- The lexical rule of `ident = Word(alphas + "_.", alphanums + "_.")`
as a predicate on a whole token spelling. -/
def identWordB (s : String) : Bool :=
  match s.data with
  | [] => false
  | c :: cs => isIdentStart c && cs.all isIdentCont

/-- The `kwds` list of the source, one entry per generated `Keyword`. -/
def kwds : List String :=
  ["message", "required", "optional", "repeated", "enum", "extensions",
   "extends", "extend", "to", "package", "service", "rpc", "returns",
   "true", "false", "option", "import", "syntax", "reserved", "oneof",
   "map"]

/-- Does a top-level item trigger the `extractCmd` overwrite for role
`name`? (`MSG_ID_RES in item and MSG_BODY_RES in item and
item[MSG_ID_RES] == name`.) A message definition matches through its
declared name; an enum matches through an injected `messageId` payload
equal to `name` together with a `messageBody` key. -/
def isCmdItem (name : String) : Item → Bool
  | .message mid _ => mid == name
  | .enum _ vs =>
    (match enumInjectedMsgId vs with
     | some mid => mid == name
     | none => false)
  | _ => false

/-- The `Command` that `extractCmd` builds from one matching top-level
item: for a message, `extractCmdContent` over its body; for a matching
enum, the walk of the injected string payload finds no `oneOfBody` key,
leaving the `oneOf` list empty. -/
def cmdOfItem (name packageName baseName : String)
    (messages : List Message) : Item → Option Command
  | .message mid body =>
    if mid == name then
      some (extractCmdContent body
        ⟨baseName ++ "_" ++ mid, packageName ++ "." ++ mid, []⟩ messages)
    else none
  | .enum _ vs =>
    (match enumInjectedMsgId vs with
     | some mid =>
       if mid == name then
         some ⟨baseName ++ "_" ++ mid, packageName ++ "." ++ mid, []⟩
       else none
     | none => none)
  | _ => none

/-- Does an item carry the `packageName` named result (a package
directive, or an enum with a value named `packageName`)? -/
def isPackageItem (it : Item) : Bool :=
  (itemPackageName it).isSome

/-! ### Helper lemmas -/

theorem lastVal_eq_none (k : String) : ∀ (vs : List (String × String)),
    (∀ pr ∈ vs, pr.1 ≠ k) → lastVal vs k = none := by
  intro vs
  induction vs with
  | nil => intro _; simp [lastVal]
  | cons pr rest ihv =>
    intro h
    have h1 : pr.1 ≠ k := h pr (List.mem_cons_self _ _)
    rw [show lastVal (pr :: rest) k
        = (match lastVal rest k with
           | some v => some v
           | none => if pr.1 == k then some pr.2 else none)
        from by simp [lastVal]]
    rw [ihv (fun x hx => h x (List.mem_cons_of_mem _ hx))]
    simp [h1]

theorem clean_not_mem (vs : List (String × String))
    (hc : enumValuesClean vs = true) :
    ∀ pr ∈ vs, pr.1 ∉ resKeys := by
  intro pr hpr
  have h2 := (List.all_eq_true.mp hc) pr hpr
  simpa using h2

theorem clean_lastVal (vs : List (String × String))
    (hc : enumValuesClean vs = true) (k : String) (hk : k ∈ resKeys) :
    lastVal vs k = none :=
  lastVal_eq_none k vs
    (fun pr hpr he => clean_not_mem vs hc pr hpr (he ▸ hk))

theorem clean_enumInjectedMsgId (vs : List (String × String))
    (hc : enumValuesClean vs = true) : enumInjectedMsgId vs = none := by
  unfold enumInjectedMsgId
  rw [clean_lastVal vs hc ("messageId") (by decide)]

theorem clean_enumEffectiveId (n : String) (vs : List (String × String))
    (hc : enumValuesClean vs = true) : enumEffectiveId n vs = n := by
  unfold enumEffectiveId
  rw [clean_lastVal vs hc ("enumId") (by decide)]

theorem clean_enumInjectedField (vs : List (String × String))
    (hc : enumValuesClean vs = true) : enumInjectedField vs = none := by
  unfold enumInjectedField
  rw [clean_lastVal vs hc ("fieldId") (by decide)]

theorem fieldsClean_updFields : ∀ (k : Nat) (items : List Item),
    sizeOf items ≤ k → fieldsClean items = true →
    ∀ (acc : List (String × String)),
    updFields items acc = directFields items acc := by
  intro k
  induction k with
  | zero =>
    intro items h
    have hpos : 0 < sizeOf items := by cases items <;> simp
    omega
  | succ k ih =>
    intro items h hcl acc
    cases items with
    | nil => simp [updFields, directFields]
    | cons it rest =>
      have hcl2 : fieldsCleanItem it = true ∧ fieldsClean rest = true := by
        simpa [fieldsClean] using hcl
      cases it with
      | message n body =>
        have hr : sizeOf rest ≤ k := by simp at h; omega
        simp only [updFields, updFieldsItem, directFields, directFieldsItem]
        exact ih rest hr hcl2.2 acc
      | enum n vs =>
        have hr : sizeOf rest ≤ k := by simp at h; omega
        have hnone : enumInjectedField vs = none := by
          have := hcl2.1
          simp [fieldsCleanItem, Option.isNone_iff_eq_none] at this
          exact this
        simp only [updFields, updFieldsItem, directFields, directFieldsItem,
          hnone]
        exact ih rest hr hcl2.2 acc
      | oneOf body =>
        have hb : sizeOf body ≤ k := by simp at h; omega
        have hr : sizeOf rest ≤ k := by simp at h; omega
        have hclb : fieldsClean body = true := by
          have := hcl2.1
          simpa [fieldsCleanItem] using this
        simp only [updFields, updFieldsItem, directFields, directFieldsItem]
        rw [ih body hb hclb acc]
        exact ih rest hr hcl2.2 _
      | field ty fid fnb =>
        have hr : sizeOf rest ≤ k := by simp at h; omega
        simp only [updFields, updFieldsItem, directFields, directFieldsItem]
        exact ih rest hr hcl2.2 _
      | package pn =>
        have hr : sizeOf rest ≤ k := by simp at h; omega
        simp only [updFields, updFieldsItem, directFields, directFieldsItem]
        exact ih rest hr hcl2.2 acc
      | other =>
        have hr : sizeOf rest ≤ k := by simp at h; omega
        simp only [updFields, updFieldsItem, directFields, directFieldsItem]
        exact ih rest hr hcl2.2 acc

theorem extractList_snd : ∀ (k : Nat) (items : List Item), sizeOf items ≤ k →
    ∀ (msgs : List Message) (base : String) (parent : Option Message),
    (extractList items msgs base parent).2 = updParent items parent := by
  intro k
  induction k with
  | zero =>
    intro items h
    have hpos : 0 < sizeOf items := by cases items <;> simp
    omega
  | succ k ih =>
    intro items h msgs base parent
    cases items with
    | nil => cases parent <;> simp [extractList, updParent, updFields]
    | cons it rest =>
      cases it with
      | message n body =>
        have hr : sizeOf rest ≤ k := by simp at h; omega
        cases parent with
        | none =>
          simp only [extractList, extractItem]
          rw [ih rest hr]
          simp [updParent]
        | some m =>
          simp only [extractList, extractItem]
          rw [ih rest hr]
          simp [updParent, updFields, updFieldsItem]
      | enum n vs =>
        have hr : sizeOf rest ≤ k := by simp at h; omega
        cases parent with
        | none =>
          simp only [extractList, extractItem]
          cases hinj : enumInjectedField vs <;>
            (rw [ih rest hr]; simp [updParent, hinj])
        | some m =>
          simp only [extractList, extractItem]
          cases hinj : enumInjectedField vs with
          | none =>
            rw [ih rest hr]
            simp [updParent, updFields, updFieldsItem, hinj]
          | some pr =>
            rw [ih rest hr]
            simp [updParent, updFields, updFieldsItem, hinj, Message.addField]
      | oneOf body =>
        have hb : sizeOf body ≤ k := by simp at h; omega
        have hr : sizeOf rest ≤ k := by simp at h; omega
        simp only [extractList, extractItem]
        rw [ih body hb, ih rest hr]
        cases parent <;> simp [updParent, updFields, updFieldsItem]
      | field ty fid fnb =>
        have hr : sizeOf rest ≤ k := by simp at h; omega
        cases parent with
        | none =>
          simp only [extractList, extractItem]
          rw [ih rest hr]
          simp [updParent, updFields, updFieldsItem]
        | some m =>
          simp only [extractList, extractItem]
          rw [ih rest hr]
          simp [updParent, updFields, updFieldsItem, Message.addField]
      | package pn =>
        have hr : sizeOf rest ≤ k := by simp at h; omega
        cases parent <;>
          (simp only [extractList, extractItem]; rw [ih rest hr];
           simp [updParent, updFields, updFieldsItem])
      | other =>
        have hr : sizeOf rest ≤ k := by simp at h; omega
        cases parent <;>
          (simp only [extractList, extractItem]; rw [ih rest hr];
           simp [updParent, updFields, updFieldsItem])

theorem extractList_fst_ids : ∀ (k : Nat) (items : List Item),
    sizeOf items ≤ k →
    ∀ (msgs : List Message) (base : String) (parent : Option Message),
    (extractList items msgs base parent).1.map Message.id
      = msgs.map Message.id
        ++ specIds items (ctxPre base parent) (ctxSep parent) := by
  intro k
  induction k with
  | zero =>
    intro items h
    have hpos : 0 < sizeOf items := by cases items <;> simp
    omega
  | succ k ih =>
    intro items h msgs base parent
    cases items with
    | nil => cases parent <;> simp [extractList, specIds]
    | cons it rest =>
      cases it with
      | message n body =>
        have hb : sizeOf body ≤ k := by simp at h; omega
        have hr : sizeOf rest ≤ k := by simp at h; omega
        cases parent with
        | none =>
          simp only [extractList, extractItem]
          rw [extractList_snd (sizeOf body) body (Nat.le_refl _)]
          simp only [updParent]
          rw [ih rest hr, List.map_append, ih body hb]
          simp [specIds, specIdsItem, ctxPre, ctxSep]
        | some m =>
          simp only [extractList, extractItem]
          rw [extractList_snd (sizeOf body) body (Nat.le_refl _)]
          simp only [updParent]
          rw [ih rest hr, List.map_append, ih body hb]
          simp [specIds, specIdsItem, ctxPre, ctxSep]
      | enum n vs =>
        have hr : sizeOf rest ≤ k := by simp at h; omega
        cases parent with
        | none =>
          simp only [extractList, extractItem]
          cases hinjm : enumInjectedMsgId vs <;>
            cases hinjf : enumInjectedField vs <;>
              (rw [ih rest hr];
               simp [specIds, specIdsItem, ctxPre, ctxSep, hinjm, hinjf])
        | some m =>
          simp only [extractList, extractItem]
          cases hinjm : enumInjectedMsgId vs <;>
            cases hinjf : enumInjectedField vs <;>
              (rw [ih rest hr];
               simp [specIds, specIdsItem, ctxPre, ctxSep, hinjm, hinjf,
                 Message.addField])
      | oneOf body =>
        have hb : sizeOf body ≤ k := by simp at h; omega
        have hr : sizeOf rest ≤ k := by simp at h; omega
        cases parent with
        | none =>
          simp only [extractList, extractItem]
          rw [extractList_snd (sizeOf body) body (Nat.le_refl _)]
          simp only [updParent]
          rw [ih rest hr, ih body hb]
          simp [specIds, specIdsItem, ctxPre, ctxSep]
        | some m =>
          simp only [extractList, extractItem]
          rw [extractList_snd (sizeOf body) body (Nat.le_refl _)]
          simp only [updParent]
          rw [ih rest hr, ih body hb]
          simp [specIds, specIdsItem, ctxPre, ctxSep]
      | field ty fid fnb =>
        have hr : sizeOf rest ≤ k := by simp at h; omega
        cases parent with
        | none =>
          simp only [extractList, extractItem]
          rw [ih rest hr]
          simp [specIds, specIdsItem, ctxPre, ctxSep]
        | some m =>
          simp only [extractList, extractItem]
          rw [ih rest hr]
          simp [specIds, specIdsItem, ctxPre, ctxSep, Message.addField]
      | package pn =>
        have hr : sizeOf rest ≤ k := by simp at h; omega
        cases parent <;>
          (simp only [extractList, extractItem]; rw [ih rest hr];
           simp [specIds, specIdsItem, ctxPre, ctxSep])
      | other =>
        have hr : sizeOf rest ≤ k := by simp at h; omega
        cases parent <;>
          (simp only [extractList, extractItem]; rw [ih rest hr];
           simp [specIds, specIdsItem, ctxPre, ctxSep])


theorem dotFreeB_not_mem (s : String) (h : dotFreeB s = true) : '.' ∉ s.data := by
  intro hm
  simp [dotFreeB, List.all_eq_true] at h
  exact h '.' hm rfl

theorem nodupB_nodup : ∀ (l : List String), nodupB l = true → l.Nodup := by
  intro l
  induction l with
  | nil => intro _; exact List.nodup_nil
  | cons s rest ihl =>
    intro h
    simp [nodupB] at h
    exact List.Nodup.cons h.1 (ihl h.2)

theorem fieldsOnly_scopeNames : ∀ (b : List Item),
    (∀ it ∈ b, isFieldItem it = true) → scopeNames b = [] := by
  intro b
  induction b with
  | nil => intro _; simp [scopeNames]
  | cons it bs ihb =>
    intro h
    have hit := h it (List.mem_cons_self _ _)
    have hbs : ∀ x ∈ bs, isFieldItem x = true :=
      fun x hx => h x (List.mem_cons_of_mem _ hx)
    cases it with
    | field ty fid fnb => simp [scopeNames, scopeNamesItem]; exact ihb hbs
    | message n body => exact absurd hit (by simp [isFieldItem])
    | enum n => exact absurd hit (by simp [isFieldItem])
    | oneOf body => exact absurd hit (by simp [isFieldItem])
    | package pn => exact absurd hit (by simp [isFieldItem])
    | other => exact absurd hit (by simp [isFieldItem])

theorem fieldsOnly_specIds : ∀ (b : List Item) (pre sep : String),
    (∀ it ∈ b, isFieldItem it = true) → specIds b pre sep = [] := by
  intro b
  induction b with
  | nil => intro pre sep _; simp [specIds]
  | cons it bs ihb =>
    intro pre sep h
    have hit := h it (List.mem_cons_self _ _)
    have hbs : ∀ x ∈ bs, isFieldItem x = true :=
      fun x hx => h x (List.mem_cons_of_mem _ hx)
    cases it with
    | field ty fid fnb => simp [specIds, specIdsItem]; exact ihb pre sep hbs
    | message n body => exact absurd hit (by simp [isFieldItem])
    | enum n => exact absurd hit (by simp [isFieldItem])
    | oneOf body => exact absurd hit (by simp [isFieldItem])
    | package pn => exact absurd hit (by simp [isFieldItem])
    | other => exact absurd hit (by simp [isFieldItem])

theorem scopeNames_dotFree : ∀ (items : List Item), wfItems items = true →
    ∀ n, n ∈ scopeNames items → '.' ∉ n.data := by
  intro items
  induction items with
  | nil => intro _ n hn; simp [scopeNames] at hn
  | cons it rest ihr =>
    intro hwf n hn
    have hwf' : wfItem it = true ∧ wfItems rest = true := by
      rw [show wfItems (it :: rest) = (wfItem it && wfItems rest) from by
        simp [wfItems]] at hwf
      exact Bool.and_eq_true_iff.mp hwf
    cases it with
    | message nm b =>
      simp [scopeNames, scopeNamesItem] at hn
      rcases hn with rfl | hn
      · have h1 := hwf'.1
        simp [wfItem, and_assoc] at h1
        exact dotFreeB_not_mem _ h1.1
      · exact ihr hwf'.2 n hn
    | enum nm vs =>
      simp [scopeNames, scopeNamesItem] at hn
      rcases hn with rfl | hn
      · have h1 := hwf'.1
        simp [wfItem] at h1
        exact dotFreeB_not_mem _ h1.1
      · exact ihr hwf'.2 n hn
    | oneOf b =>
      have hb : scopeNames b = [] := by
        have h1 := hwf'.1
        simp [wfItem, List.all_eq_true] at h1
        exact fieldsOnly_scopeNames b h1
      simp [scopeNames, scopeNamesItem, hb] at hn
      exact ihr hwf'.2 n hn
    | field ty fid fnb => simp [scopeNames, scopeNamesItem] at hn; exact ihr hwf'.2 n hn
    | package pn => simp [scopeNames, scopeNamesItem] at hn; exact ihr hwf'.2 n hn
    | other => simp [scopeNames, scopeNamesItem] at hn; exact ihr hwf'.2 n hn

theorem takeWhile_append_dot (n r : List Char) (h : '.' ∉ n) :
    (n ++ '.' :: r).takeWhile (fun c => c != '.') = n := by
  induction n with
  | nil => simp
  | cons c cs ihn =>
    have hc : (c != '.') = true := by
      simp only [bne_iff_ne, ne_eq, decide_eq_true_eq]
      intro he
      exact h (he ▸ List.mem_cons_self c cs)
    simp only [List.cons_append, List.takeWhile_cons, hc, if_true]
    rw [ihn (fun hm => h (List.mem_cons_of_mem _ hm))]

theorem path_head_eq (n₁ n₂ t₁ t₂ : List Char)
    (h₁ : '.' ∉ n₁) (h₂ : '.' ∉ n₂)
    (ht₁ : t₁ = [] ∨ ∃ r, t₁ = '.' :: r)
    (ht₂ : t₂ = [] ∨ ∃ r, t₂ = '.' :: r)
    (he : n₁ ++ t₁ = n₂ ++ t₂) : n₁ = n₂ := by
  rcases ht₁ with rfl | ⟨r₁, rfl⟩ <;> rcases ht₂ with rfl | ⟨r₂, rfl⟩
  · simpa using he
  · exfalso
    apply h₁
    rw [List.append_nil] at he
    rw [he]
    exact List.mem_append_right _ (List.mem_cons_self _ _)
  · exfalso
    apply h₂
    rw [List.append_nil] at he
    rw [← he]
    exact List.mem_append_right _ (List.mem_cons_self _ _)
  · have htw := congrArg (List.takeWhile (fun c => c != '.')) he
    rwa [takeWhile_append_dot _ _ h₁, takeWhile_append_dot _ _ h₂] at htw



theorem specIds_shape : ∀ (k : Nat) (items : List Item), sizeOf items ≤ k →
    wfItems items = true →
    ∀ (pre sep id : String), id ∈ specIds items pre sep →
    ∃ n t, n ∈ scopeNames items ∧
      id.data = pre.data ++ (sep.data ++ (n.data ++ t)) ∧
      (t = [] ∨ ∃ r, t = '.' :: r) := by
  intro k
  induction k with
  | zero =>
    intro items h
    have hpos : 0 < sizeOf items := by cases items <;> simp
    omega
  | succ k ih =>
    intro items h hwf pre sep id hid
    cases items with
    | nil => simp [specIds] at hid
    | cons it rest =>
      have hwf2 : wfItem it = true ∧ wfItems rest = true := by
        simpa [wfItems] using hwf
      cases it with
      | message n body =>
        have hb : sizeOf body ≤ k := by simp at h; omega
        have hr : sizeOf rest ≤ k := by simp at h; omega
        have h1 := hwf2.1
        simp [wfItem, and_assoc] at h1
        simp only [specIds, specIdsItem, List.mem_append, List.mem_singleton] at hid
        rcases hid with (hidb | rfl) | hidr
        · obtain ⟨n', t', hn', hdata, hdot⟩ := ih body hb h1.2.2 _ _ _ hidb
          refine ⟨n, '.' :: (n'.data ++ t'), by simp [scopeNames, scopeNamesItem], ?_, Or.inr ⟨_, rfl⟩⟩
          rw [hdata]
          simp [String.data_append]
        · refine ⟨n, [], by simp [scopeNames, scopeNamesItem], ?_, Or.inl rfl⟩
          simp [String.data_append]
        · obtain ⟨m, t, hm, hdata, hdot⟩ := ih rest hr hwf2.2 _ _ _ hidr
          refine ⟨m, t, ?_, hdata, hdot⟩
          simp [scopeNames, scopeNamesItem]
          exact Or.inr hm
      | enum n vs =>
        have hr : sizeOf rest ≤ k := by simp at h; omega
        have h1 := hwf2.1
        simp [wfItem] at h1
        simp only [specIds, specIdsItem, clean_enumInjectedMsgId vs h1.2,
          clean_enumEffectiveId n vs h1.2, List.nil_append, List.mem_append,
          List.mem_singleton] at hid
        rcases hid with rfl | hidr
        · refine ⟨n, [], by simp [scopeNames, scopeNamesItem], ?_, Or.inl rfl⟩
          simp [String.data_append]
        · obtain ⟨m, t, hm, hdata, hdot⟩ := ih rest hr hwf2.2 _ _ _ hidr
          refine ⟨m, t, ?_, hdata, hdot⟩
          simp [scopeNames, scopeNamesItem]
          exact Or.inr hm
      | oneOf body =>
        have hr : sizeOf rest ≤ k := by simp at h; omega
        have hfo : ∀ x ∈ body, isFieldItem x = true := by
          have h1 := hwf2.1
          simpa [wfItem, List.all_eq_true] using h1
        simp only [specIds, specIdsItem, List.mem_append] at hid
        rw [fieldsOnly_specIds body pre sep hfo] at hid
        simp only [List.not_mem_nil, false_or] at hid
        obtain ⟨m, t, hm, hdata, hdot⟩ := ih rest hr hwf2.2 _ _ _ hid
        refine ⟨m, t, ?_, hdata, hdot⟩
        simp [scopeNames, scopeNamesItem]
        exact Or.inr hm
      | field ty fid fnb =>
        have hr : sizeOf rest ≤ k := by simp at h; omega
        simp only [specIds, specIdsItem, List.nil_append] at hid
        obtain ⟨m, t, hm, hdata, hdot⟩ := ih rest hr hwf2.2 _ _ _ hid
        exact ⟨m, t, by simp [scopeNames, scopeNamesItem]; exact hm, hdata, hdot⟩
      | package pn =>
        have hr : sizeOf rest ≤ k := by simp at h; omega
        simp only [specIds, specIdsItem, List.nil_append] at hid
        obtain ⟨m, t, hm, hdata, hdot⟩ := ih rest hr hwf2.2 _ _ _ hid
        exact ⟨m, t, by simp [scopeNames, scopeNamesItem]; exact hm, hdata, hdot⟩
      | other =>
        have hr : sizeOf rest ≤ k := by simp at h; omega
        simp only [specIds, specIdsItem, List.nil_append] at hid
        obtain ⟨m, t, hm, hdata, hdot⟩ := ih rest hr hwf2.2 _ _ _ hid
        exact ⟨m, t, by simp [scopeNames, scopeNamesItem]; exact hm, hdata, hdot⟩

theorem pre_name_not_mem_specIds (rest : List Item) (pre sep n : String)
    (hwfr : wfItems rest = true)
    (hdfn : '.' ∉ n.data)
    (hnmem : n ∉ scopeNames rest) :
    (pre ++ sep ++ n) ∉ specIds rest pre sep := by
  intro hmem
  obtain ⟨m, t, hm, hdata, hdot⟩ :=
    specIds_shape (sizeOf rest) rest (Nat.le_refl _) hwfr pre sep _ hmem
  have hPdata : (pre ++ sep ++ n).data
      = pre.data ++ (sep.data ++ (n.data ++ ([] : List Char))) := by
    simp [String.data_append]
  have heq3 :=
    List.append_cancel_left (List.append_cancel_left (hPdata.symm.trans hdata))
  have hhead := path_head_eq n.data m.data [] t hdfn
    (scopeNames_dotFree rest hwfr m hm) (Or.inl rfl) hdot heq3
  exact hnmem ((String.ext hhead) ▸ hm)

theorem specIds_sub_shape (body : List Item) (pre sep n a : String)
    (hwfb : wfItems body = true)
    (ha : a ∈ specIds body (pre ++ sep ++ n) (".")) :
    ∃ u, a.data = pre.data ++ (sep.data ++ (n.data ++ ('.' :: u))) := by
  obtain ⟨n', t', hmem', hdata, hdot'⟩ :=
    specIds_shape (sizeOf body) body (Nat.le_refl _) hwfb _ _ _ ha
  refine ⟨n'.data ++ t', ?_⟩
  rw [hdata]
  simp [String.data_append]

theorem specIds_nodup : ∀ (k : Nat) (items : List Item), sizeOf items ≤ k →
    wfItems items = true → (scopeNames items).Nodup →
    ∀ (pre sep : String), (specIds items pre sep).Nodup := by
  intro k
  induction k with
  | zero =>
    intro items h
    have hpos : 0 < sizeOf items := by cases items <;> simp
    omega
  | succ k ih =>
    intro items h hwf hnd pre sep
    cases items with
    | nil => simp [specIds]
    | cons it rest =>
      have hwf2 : wfItem it = true ∧ wfItems rest = true := by
        simpa [wfItems] using hwf
      cases it with
      | message n body =>
        have hb : sizeOf body ≤ k := by simp at h; omega
        have hr : sizeOf rest ≤ k := by simp at h; omega
        have h1 := hwf2.1
        simp [wfItem, and_assoc] at h1
        obtain ⟨hdf, hndb, hwfb⟩ := h1
        have hndScope : n ∉ scopeNames rest ∧ (scopeNames rest).Nodup := by
          rw [show scopeNames (Item.message n body :: rest)
              = n :: scopeNames rest from by simp [scopeNames, scopeNamesItem]] at hnd
          exact ⟨(List.nodup_cons.mp hnd).1, (List.nodup_cons.mp hnd).2⟩
        have hdfn : '.' ∉ n.data := dotFreeB_not_mem _ hdf
        simp only [specIds, specIdsItem]
        rw [List.nodup_append]
        refine ⟨?_, ih rest hr hwf2.2 hndScope.2 pre sep, ?_⟩
        · rw [List.nodup_append]
          refine ⟨ih body hb hwfb (nodupB_nodup _ hndb) _ _,
            List.nodup_singleton _, ?_⟩
          intro a haA ha
          rw [List.mem_singleton] at ha
          subst ha
          obtain ⟨u, hdataA⟩ := specIds_sub_shape body pre sep n _ hwfb haA
          have hPdata : (pre ++ sep ++ n).data
              = pre.data ++ (sep.data ++ (n.data ++ ([] : List Char))) := by
            simp [String.data_append]
          have heq3 := List.append_cancel_left
            (List.append_cancel_left (hPdata.symm.trans hdataA))
          have hcontra := List.append_cancel_left heq3
          exact absurd hcontra (by simp)
        · intro a haAP haB
          obtain ⟨m, t, hm, hdataB, hdotB⟩ :=
            specIds_shape (sizeOf rest) rest (Nat.le_refl _) hwf2.2 pre sep _ haB
          rw [List.mem_append, List.mem_singleton] at haAP
          rcases haAP with haA | rfl
          · obtain ⟨u, hdataA⟩ := specIds_sub_shape body pre sep n a hwfb haA
            have heq3 := List.append_cancel_left
              (List.append_cancel_left (hdataA.symm.trans hdataB))
            have hhead := path_head_eq n.data m.data ('.' :: u) t hdfn
              (scopeNames_dotFree rest hwf2.2 m hm) (Or.inr ⟨_, rfl⟩) hdotB heq3
            exact hndScope.1 ((String.ext hhead) ▸ hm)
          · exact pre_name_not_mem_specIds rest pre sep n hwf2.2 hdfn
              hndScope.1 haB
      | enum n vs =>
        have hr : sizeOf rest ≤ k := by simp at h; omega
        have h1 := hwf2.1
        simp [wfItem] at h1
        have hndScope : n ∉ scopeNames rest ∧ (scopeNames rest).Nodup := by
          rw [show scopeNames (Item.enum n vs :: rest)
              = n :: scopeNames rest from by simp [scopeNames, scopeNamesItem]] at hnd
          exact ⟨(List.nodup_cons.mp hnd).1, (List.nodup_cons.mp hnd).2⟩
        simp only [specIds, specIdsItem, clean_enumInjectedMsgId vs h1.2,
          clean_enumEffectiveId n vs h1.2, List.nil_append,
          List.singleton_append]
        rw [List.nodup_cons]
        refine ⟨?_, ih rest hr hwf2.2 hndScope.2 pre sep⟩
        exact pre_name_not_mem_specIds rest pre sep n hwf2.2
          (dotFreeB_not_mem _ h1.1) hndScope.1
      | oneOf body =>
        have hr : sizeOf rest ≤ k := by simp at h; omega
        have hfo : ∀ x ∈ body, isFieldItem x = true := by
          have h1 := hwf2.1
          simpa [wfItem, List.all_eq_true] using h1
        have hnd' : (scopeNames rest).Nodup := by
          rw [show scopeNames (Item.oneOf body :: rest)
              = scopeNames body ++ scopeNames rest from by simp [scopeNames, scopeNamesItem]] at hnd
          rw [fieldsOnly_scopeNames body hfo] at hnd
          simpa using hnd
        simp only [specIds, specIdsItem]
        rw [fieldsOnly_specIds body pre sep hfo]
        simpa using ih rest hr hwf2.2 hnd' pre sep
      | field ty fid fnb =>
        have hr : sizeOf rest ≤ k := by simp at h; omega
        have hnd' : (scopeNames rest).Nodup := by
          rw [show scopeNames (Item.field ty fid fnb :: rest)
              = scopeNames rest from by simp [scopeNames, scopeNamesItem]] at hnd
          exact hnd
        simp only [specIds, specIdsItem, List.nil_append]
        exact ih rest hr hwf2.2 hnd' pre sep
      | package pn =>
        have hr : sizeOf rest ≤ k := by simp at h; omega
        have hnd' : (scopeNames rest).Nodup := by
          rw [show scopeNames (Item.package pn :: rest)
              = scopeNames rest from by simp [scopeNames, scopeNamesItem]] at hnd
          exact hnd
        simp only [specIds, specIdsItem, List.nil_append]
        exact ih rest hr hwf2.2 hnd' pre sep
      | other =>
        have hr : sizeOf rest ≤ k := by simp at h; omega
        have hnd' : (scopeNames rest).Nodup := by
          rw [show scopeNames (Item.other :: rest)
              = scopeNames rest from by simp [scopeNames, scopeNamesItem]] at hnd
          exact hnd
        simp only [specIds, specIdsItem, List.nil_append]
        exact ih rest hr hwf2.2 hnd' pre sep


/-! ### Claim theorems -/

/-- C1 (counterexample): on the spec's round-trip schema, `parseFile`
does return the claimed command and no event, but the first extracted
message is `Message "My_Pkg_Command"` with fields `{"foo": "1"}` — the
`oneof` field is merged into the container's own field map — whereas the
claim's `Message("My_Pkg_Command")` has an empty field map. Hence the
returned message list differs from the claimed one. -/
theorem c1_roundtrip_counterexample :
    parseFile ("package my.pkg;\nmessage Command \x7b\n  oneof id \x7b\n    Foo foo = 1;\n  \x7d\n\x7d\nmessage Foo \x7b int32 x = 1; \x7d\n")
      = Except.ok
          ([⟨"My_Pkg_Command", [("foo", "1")]⟩, ⟨"My_Pkg_Foo", [("x", "1")]⟩],
            some ⟨"My_Pkg_Command", "my.pkg.Command",
              [⟨"foo", "My_Pkg_Foo", "1"⟩]⟩,
            none)
    ∧ ([⟨"My_Pkg_Command", [("foo", "1")]⟩, ⟨"My_Pkg_Foo", [("x", "1")]⟩]
        : List Message)
      ≠ [⟨"My_Pkg_Command", []⟩, ⟨"My_Pkg_Foo", [("x", "1")]⟩] :=
  ⟨rfl, by decide⟩

/-- C1 (amended): on the round-trip schema, `parseFile` returns
`messages = [Message "My_Pkg_Command" {"foo": "1"},
Message "My_Pkg_Foo" {"x": "1"}]` (the container's `oneof` field is
recorded in its own field map), `command = Command "My_Pkg_Command"
"my.pkg.Command" [{id := "foo", type := "My_Pkg_Foo", number := "1"}]`
and `event = none`. -/
theorem c1_roundtrip_amended :
    parseFile ("package my.pkg;\nmessage Command \x7b\n  oneof id \x7b\n    Foo foo = 1;\n  \x7d\n\x7d\nmessage Foo \x7b int32 x = 1; \x7d\n")
      = Except.ok
          ([⟨"My_Pkg_Command", [("foo", "1")]⟩, ⟨"My_Pkg_Foo", [("x", "1")]⟩],
            some ⟨"My_Pkg_Command", "my.pkg.Command",
              [⟨"foo", "My_Pkg_Foo", "1"⟩]⟩,
            none) := rfl

/-- C2 (counterexample): the schema `message A {} message A {}` parses
successfully, and the extracted message list `[_A, _A]` does not have
pairwise distinct ids. -/
theorem c2_unique_ids_counterexample :
    parseFile ("message A \x7b\x7d message A \x7b\x7d")
      = Except.ok ([⟨"_A", []⟩, ⟨"_A", []⟩], none, none)
    ∧ ¬ (([⟨"_A", []⟩, ⟨"_A", []⟩] : List Message).map Message.id).Nodup :=
  ⟨rfl, by decide⟩

/-- C2 (amended): the ids in the list returned by `extractMessages` are
pairwise distinct provided the parse-result forest is well-formed
(`wfTop`): within every scope the declared message/enum names are
pairwise distinct, every declared name is dot-free, and `oneof` bodies
contain only field definitions. Without the distinct-names condition the
property fails (see the counterexample), and dotted names — which the
`ident` lexical rule admits — can likewise forge colliding ids. -/
theorem c2_unique_ids_amended (items : List Item) (base : String)
    (hwf : wfTop items = true) :
    ((extractMessages items base).map Message.id).Nodup := by
  have h2 : nodupB (scopeNames items) = true ∧ wfItems items = true := by
    simpa [wfTop] using hwf
  rw [show extractMessages items base
      = (extractList items [] base none).1 from rfl]
  rw [extractList_fst_ids (sizeOf items) items (Nat.le_refl _)]
  simp only [List.map_nil, List.nil_append, ctxPre, ctxSep]
  exact specIds_nodup (sizeOf items) items (Nat.le_refl _) h2.2
    (nodupB_nodup _ h2.1) base ("_")

/-- C2 (witness): a concrete well-formed forest on which the amended
theorem applies. -/
theorem c2_unique_ids_witness :
    wfTop [Item.message ("A") [], Item.enum ("B") []] = true
    ∧ ((extractMessages [Item.message ("A") [], Item.enum ("B") []] ("")).map
        Message.id).Nodup :=
  ⟨by decide, c2_unique_ids_amended _ _ (by decide)⟩

/-- C4 (counterexample): the schema `message message {}` — whose message
name is the keyword spelling `message` in an identifier position — is
accepted by the parser, producing a message named `message` (extracted
id `_message`); the claim says such a token is rejected as an
identifier. -/
theorem c4_keyword_ident_counterexample :
    parseFile ("message message \x7b\x7d")
      = Except.ok ([⟨"_message", []⟩], none, none) := rfl

/-- C4 (amended): keywords are matched as `Keyword` tokens in keyword
positions, but the `ident` rule
(`Word(alphas + "_.", alphanums + "_.")`) performs no keyword exclusion:
every reserved keyword spelling satisfies the identifier lexical rule,
and a keyword spelling is accepted in a position that requires an
identifier (e.g. `message message {}` parses, with `message` as the
declared message name). -/
theorem c4_keyword_ident_amended :
    kwds.all identWordB = true
    ∧ parseProtoText ("message message \x7b\x7d")
      = Except.ok [Item.message ("message") []] :=
  ⟨by decide, rfl⟩

/-- C6: whenever the grammar engine fails (with a position-annotated
`ParseError`), `parseFile` propagates exactly that error and produces no
model at all — no message list, no command, no event; extraction only
runs after a fully successful parse. -/
theorem c6_parse_error_no_model (text : String) (e : ParseError)
    (h : parseProtoText text = Except.error e) :
    parseFile text = Except.error e := by
  simp [parseFile, h]

/-- C6 (witness): the unterminated message body `message Foo {` fails at
position 13 expecting the closing brace, and `parseFile` returns exactly
that error. -/
theorem c6_witness :
    parseProtoText ("message Foo \x7b") = Except.error ⟨13, "Expected \x7d"⟩
    ∧ parseFile ("message Foo \x7b") = Except.error ⟨13, "Expected \x7d"⟩ :=
  ⟨rfl, c6_parse_error_no_model _ _ rfl⟩

/-- C7 (counterexample): a nested enum with values named `fieldId` and
`fieldNumber` injects a field into the ENCLOSING message's field map:
for `message M { enum E { fieldId = 3; fieldNumber = 9; } }`
the extracted message `_M` carries the field entry `("3", "9")` even
though the body of `M` contains no field definition at all. -/
theorem c7_fields_own_scope_counterexample :
    parseFile
        ("message M { enum E { fieldId = 3; fieldNumber = 9; } }")
      = Except.ok ([⟨"_M.E", []⟩, ⟨"_M", [("3", "9")]⟩], none, none)
    ∧ fieldDefs [Item.enum ("E") [("fieldId", "3"), ("fieldNumber", "9")]]
      = [] :=
  ⟨rfl, rfl⟩

/-- C7 (amended): provided no enum in the processed list (recursively
through `oneof` bodies) carries the `Dict`-injected `fieldId` and
`fieldNumber` named results (`fieldsClean`), processing a result-item
list with a parent message updates exactly the parent's own field map by
`directFields`, which records direct field definitions and, recursively,
the field definitions inside `oneof` bodies, while nested message and
enum definitions contribute nothing to the parent's map; and the message
appended for a message definition carries `directFields` of its own
body only. Without the `fieldsClean` condition a nested enum named
result pair is written into the parent's map (see the
counterexample). -/
theorem c7_fields_own_scope (items : List Item) (msgs : List Message)
    (base pid : String) (pfs : List (String × String))
    (n : String) (b : List Item)
    (hc : fieldsClean items = true) (hcb : fieldsClean b = true) :
    ((extractList items msgs base (some ⟨pid, pfs⟩)).2
      = some ⟨pid, directFields items pfs⟩)
    ∧ ((extractItem (Item.message n b) msgs base none).1.getLast?
      = some ⟨base ++ "_" ++ n, directFields b []⟩) := by
  have he := fieldsClean_updFields (sizeOf items) items (Nat.le_refl _) hc
  have heb := fieldsClean_updFields (sizeOf b) b (Nat.le_refl _) hcb
  constructor
  · rw [extractList_snd (sizeOf items) items (Nat.le_refl _)]
    simp [updParent, he]
  · simp only [extractItem]
    rw [extractList_snd (sizeOf b) b (Nat.le_refl _)]
    simp [updParent, List.getLast?_concat, heb]

/-- C7 (witness): a concrete clean body on which the amended theorem
applies. -/
theorem c7_fields_own_scope_witness :
    fieldsClean [Item.field ("int32") ("x") ("1")] = true
    ∧ fieldsClean [Item.oneOf [Item.field ("int32") ("y") ("2")]] = true
    ∧ (((extractList [Item.field ("int32") ("x") ("1")] [] ("B")
          (some ⟨"P", []⟩)).2
        = some ⟨"P", directFields [Item.field ("int32") ("x") ("1")] []⟩)
      ∧ ((extractItem (Item.message ("N")
            [Item.oneOf [Item.field ("int32") ("y") ("2")]]) [] ("B")
            none).1.getLast?
        = some ⟨"B" ++ "_" ++ "N",
            directFields [Item.oneOf [Item.field ("int32") ("y") ("2")]]
              []⟩)) :=
  ⟨by decide, by decide,
    c7_fields_own_scope _ _ _ _ _ _ _ (by decide) (by decide)⟩

/-- C8: the flat message list is built in post-order with the claimed id
forms: the ids of `extractMessages` are exactly `specIds`, which lists,
for every message definition, the ids of its nested definitions before
the definition's own id, giving a top-level definition named `n` the id
`root ++ "_" ++ n` and a definition nested under a parent with id `p`
the id `p ++ "." ++ n`. -/
theorem c8_postorder_ids (items : List Item) (base : String) :
    (extractMessages items base).map Message.id = specIds items base ("_") := by
  rw [show extractMessages items base
      = (extractList items [] base none).1 from rfl]
  rw [extractList_fst_ids (sizeOf items) items (Nat.le_refl _)]
  simp [ctxPre, ctxSep]

theorem getLast?_cons_or {α : Type} (x : α) (l : List α) :
    (x :: l).getLast? = match l.getLast? with
      | some y => some y
      | none => some x := by
  induction l generalizing x with
  | nil => simp
  | cons y ys ihy =>
    rw [List.getLast?_cons_cons, ihy y]
    cases h : ys.getLast? <;> simp

/-- The accumulator form of the `extractCmd` loop: the result is the
`Command` built from the last matching top-level item, or the
accumulator when none matches. -/
theorem extractCmdAux_last (name pkg base : String) (messages : List Message) :
    ∀ (items : List Item) (acc : Option Command),
    extractCmdAux name pkg base messages items acc
      = match (items.filter (isCmdItem name)).getLast? with
        | some it => cmdOfItem name pkg base messages it
        | none => acc := by
  intro items
  induction items with
  | nil => intro acc; simp [extractCmdAux]
  | cons it rest ihr =>
    intro acc
    cases it with
    | message mid body =>
      by_cases hm : (mid == name) = true
      · rw [show extractCmdAux name pkg base messages
              (Item.message mid body :: rest) acc
            = extractCmdAux name pkg base messages rest
                (some (extractCmdContent body
                  ⟨base ++ "_" ++ mid, pkg ++ "." ++ mid, []⟩ messages))
            from by simp [extractCmdAux, hm]]
        rw [ihr]
        rw [show (Item.message mid body :: rest).filter (isCmdItem name)
            = Item.message mid body :: rest.filter (isCmdItem name)
            from by simp [List.filter_cons, isCmdItem, hm]]
        rw [getLast?_cons_or]
        cases h : (rest.filter (isCmdItem name)).getLast? with
        | some it' => simp
        | none => simp [cmdOfItem, hm]
      · rw [show extractCmdAux name pkg base messages
              (Item.message mid body :: rest) acc
            = extractCmdAux name pkg base messages rest acc
            from by simp [extractCmdAux, hm]]
        rw [ihr]
        rw [show (Item.message mid body :: rest).filter (isCmdItem name)
            = rest.filter (isCmdItem name)
            from by simp [List.filter_cons, isCmdItem, hm]]
    | enum n vs =>
      cases hinj : enumInjectedMsgId vs with
      | none =>
        rw [show extractCmdAux name pkg base messages
              (Item.enum n vs :: rest) acc
            = extractCmdAux name pkg base messages rest acc
            from by simp [extractCmdAux, hinj]]
        rw [ihr]
        rw [show (Item.enum n vs :: rest).filter (isCmdItem name)
            = rest.filter (isCmdItem name)
            from by simp [List.filter_cons, isCmdItem, hinj]]
      | some mid =>
        by_cases hm : (mid == name) = true
        · rw [show extractCmdAux name pkg base messages
                (Item.enum n vs :: rest) acc
              = extractCmdAux name pkg base messages rest
                  (some ⟨base ++ "_" ++ mid, pkg ++ "." ++ mid, []⟩)
              from by simp [extractCmdAux, hinj, hm]]
          rw [ihr]
          rw [show (Item.enum n vs :: rest).filter (isCmdItem name)
              = Item.enum n vs :: rest.filter (isCmdItem name)
              from by simp [List.filter_cons, isCmdItem, hinj, hm]]
          rw [getLast?_cons_or]
          cases h : (rest.filter (isCmdItem name)).getLast? with
          | some it' => simp
          | none => simp [cmdOfItem, hinj, hm]
        · rw [show extractCmdAux name pkg base messages
                (Item.enum n vs :: rest) acc
              = extractCmdAux name pkg base messages rest acc
              from by simp [extractCmdAux, hinj, hm]]
          rw [ihr]
          rw [show (Item.enum n vs :: rest).filter (isCmdItem name)
              = rest.filter (isCmdItem name)
              from by simp [List.filter_cons, isCmdItem, hinj, hm]]
    | oneOf b =>
      rw [show extractCmdAux name pkg base messages (Item.oneOf b :: rest) acc
          = extractCmdAux name pkg base messages rest acc
          from by simp [extractCmdAux]]
      rw [ihr]
      rw [show (Item.oneOf b :: rest).filter (isCmdItem name)
          = rest.filter (isCmdItem name)
          from by simp [List.filter_cons, isCmdItem]]
    | field ty fid fnb =>
      rw [show extractCmdAux name pkg base messages
            (Item.field ty fid fnb :: rest) acc
          = extractCmdAux name pkg base messages rest acc
          from by simp [extractCmdAux]]
      rw [ihr]
      rw [show (Item.field ty fid fnb :: rest).filter (isCmdItem name)
          = rest.filter (isCmdItem name)
          from by simp [List.filter_cons, isCmdItem]]
    | package pn =>
      rw [show extractCmdAux name pkg base messages
            (Item.package pn :: rest) acc
          = extractCmdAux name pkg base messages rest acc
          from by simp [extractCmdAux]]
      rw [ihr]
      rw [show (Item.package pn :: rest).filter (isCmdItem name)
          = rest.filter (isCmdItem name)
          from by simp [List.filter_cons, isCmdItem]]
    | other =>
      rw [show extractCmdAux name pkg base messages (Item.other :: rest) acc
          = extractCmdAux name pkg base messages rest acc
          from by simp [extractCmdAux]]
      rw [ihr]
      rw [show (Item.other :: rest).filter (isCmdItem name)
          = rest.filter (isCmdItem name)
          from by simp [List.filter_cons, isCmdItem]]

/-- C3: when a schema's top level contains two or more message
definitions whose declared name equals the role name, `extractCmd`
returns the `Command` built (by `extractCmdContent`) from the LAST
matching definition in source order — the loop unconditionally
overwrites its accumulator on every match. -/
theorem c3_last_wins (items : List Item) (name packageName baseName : String)
    (messages : List Message) (it : Item)
    (htwo : 2 ≤ (items.filter (isCmdItem name)).length)
    (hlast : (items.filter (isCmdItem name)).getLast? = some it) :
    extractCmd name items packageName baseName messages
      = cmdOfItem name packageName baseName messages it := by
  rw [show extractCmd name items packageName baseName messages
      = extractCmdAux name packageName baseName messages items none from rfl]
  rw [extractCmdAux_last, hlast]

/-- C3 (witness): two sibling `message Command` definitions; the command
built from the second (last) one is returned. -/
theorem c3_last_wins_witness :
    2 ≤ (([Item.message ("Command") [Item.oneOf [Item.field ("int32") ("a") ("1")]],
           Item.message ("Command") [Item.oneOf [Item.field ("int32") ("b") ("2")]]]
          : List Item).filter (isCmdItem ("Command"))).length
    ∧ (([Item.message ("Command") [Item.oneOf [Item.field ("int32") ("a") ("1")]],
         Item.message ("Command") [Item.oneOf [Item.field ("int32") ("b") ("2")]]]
        : List Item).filter (isCmdItem ("Command"))).getLast?
      = some (Item.message ("Command")
          [Item.oneOf [Item.field ("int32") ("b") ("2")]])
    ∧ extractCmd ("Command")
        [Item.message ("Command") [Item.oneOf [Item.field ("int32") ("a") ("1")]],
         Item.message ("Command") [Item.oneOf [Item.field ("int32") ("b") ("2")]]]
        ("p") ("B") []
      = cmdOfItem ("Command") ("p") ("B") []
          (Item.message ("Command")
            [Item.oneOf [Item.field ("int32") ("b") ("2")]]) :=
  ⟨by decide, rfl, c3_last_wins _ _ _ _ _ _ (by decide) rfl⟩

/-- C5 (counterexample): `normalizeType` is not idempotent on fully
qualified names, already on a parser-produced message list: the schema
`message A { message x__B {} } message B {}` extracts
the messages `[_A.x__B, _A, _B]`, and the already-fully-qualified type
token `_B` (the id of message `B`) is rewritten by the suffix-match pass
to `_A.x__B` (which ends with `__B`), not returned unchanged. -/
theorem c5_normalize_counterexample :
    parseFile ("message A { message x__B {} } message B {}")
      = Except.ok ([⟨"_A.x__B", []⟩, ⟨"_A", []⟩, ⟨"_B", []⟩], none, none)
    ∧ (⟨"_B", []⟩ : Message)
      ∈ ([⟨"_A.x__B", []⟩, ⟨"_A", []⟩, ⟨"_B", []⟩] : List Message)
    ∧ normalizeType ("_B") ("_Command")
        [⟨"_A.x__B", []⟩, ⟨"_A", []⟩, ⟨"_B", []⟩] = "_A.x__B"
    ∧ ("_A.x__B" : String) ≠ "_B" :=
  ⟨rfl, by decide, by decide, by decide⟩

/-- C5 (amended): `normalizeType` returns its type token unchanged
EXACTLY when both resolution passes miss: the result equals the token if
and only if no message id equals `parentType ++ "." ++ t` and no message
id ends with `"_" ++ t`. In particular an already-fully-qualified token
is NOT always returned unchanged — when some message id matches one of
the two patterns (which happens on parser-produced lists, see the
counterexample), that id is returned instead. -/
theorem c5_normalize_amended (t parentType : String)
    (messages : List Message) :
    normalizeType t parentType messages = t
      ↔ ((∀ m ∈ messages, (m.id == parentType ++ "." ++ t) = false)
        ∧ (∀ m ∈ messages, pyEndsWith m.id ("_" ++ t) = false)) := by
  constructor
  · intro h
    cases h1 : messages.find? (fun m => m.id == parentType ++ "." ++ t) with
    | some m =>
      have hm := List.find?_some h1
      have hmid : m.id = parentType ++ "." ++ t := by simpa using hm
      simp only [normalizeType, h1] at h
      rw [hmid] at h
      have hdot : (("." : String)).data = ['.'] := rfl
      have hlen := congrArg (fun s => s.data.length) h
      simp only [String.data_append, hdot, List.append_assoc,
        List.length_append, List.length_cons, List.length_nil] at hlen
      omega
    | none =>
      cases h2 : messages.find? (fun m => pyEndsWith m.id ("_" ++ t)) with
      | some m =>
        have hm := List.find?_some h2
        simp only [normalizeType, h1, h2] at h
        rw [h] at hm
        simp only [pyEndsWith] at hm
        have hsuf := List.isSuffixOf_iff_suffix.mp hm
        have hlen := hsuf.length_le
        have hund : (("_" : String)).data = ['_'] := rfl
        simp only [String.data_append, hund, List.length_append,
          List.length_cons, List.length_nil] at hlen
        omega
      | none =>
        refine ⟨?_, ?_⟩
        · intro m hm
          have hne := List.find?_eq_none.mp h1 m hm
          simpa using hne
        · intro m hm
          have hne := List.find?_eq_none.mp h2 m hm
          simpa using hne
  · intro hmiss
    have e1 : messages.find?
        (fun m => m.id == parentType ++ "." ++ t) = none :=
      List.find?_eq_none.mpr (fun m hm => by simp [hmiss.1 m hm])
    have e2 : messages.find? (fun m => pyEndsWith m.id ("_" ++ t)) = none :=
      List.find?_eq_none.mpr (fun m hm => by simp [hmiss.2 m hm])
    simp [normalizeType, e1, e2]

theorem getPackageName_no_package : ∀ (items : List Item),
    (∀ it ∈ items, isPackageItem it = false) → getPackageName items = "" := by
  intro items
  induction items with
  | nil => intro _; simp [getPackageName]
  | cons it rest ihr =>
    intro h
    have hit := h it (List.mem_cons_self _ _)
    have hrest : ∀ x ∈ rest, isPackageItem x = false :=
      fun x hx => h x (List.mem_cons_of_mem _ hx)
    have hnone : itemPackageName it = none := by
      cases ho : itemPackageName it with
      | none => rfl
      | some v => simp [isPackageItem, ho] at hit
    rw [show getPackageName (it :: rest) = getPackageName rest from by
      simp only [getPackageName, hnone]]
    exact ihr hrest

theorem getBaseName_no_package : ∀ (items : List Item),
    (∀ it ∈ items, isPackageItem it = false) → getBaseName items = "" := by
  intro items
  induction items with
  | nil => intro _; simp [getBaseName]
  | cons it rest ihr =>
    intro h
    have hit := h it (List.mem_cons_self _ _)
    have hrest : ∀ x ∈ rest, isPackageItem x = false :=
      fun x hx => h x (List.mem_cons_of_mem _ hx)
    have hnone : itemPackageName it = none := by
      cases ho : itemPackageName it with
      | none => rfl
      | some v => simp [isPackageItem, ho] at hit
    rw [show getBaseName (it :: rest) = getBaseName rest from by
      simp only [getBaseName, hnone]]
    exact ihr hrest

theorem specIds_mem_of_message : ∀ (items : List Item)
    (pre sep n : String) (body : List Item),
    Item.message n body ∈ items → (pre ++ sep ++ n) ∈ specIds items pre sep := by
  intro items
  induction items with
  | nil => intro _ _ _ _ h; simp at h
  | cons it rest ihr =>
    intro pre sep n body h
    rcases List.mem_cons.mp h with heq | h2
    · subst heq
      simp [specIds, specIdsItem]
    · rw [show specIds (it :: rest) pre sep
          = specIdsItem it pre sep ++ specIds rest pre sep
          from by simp [specIds]]
      exact List.mem_append_right _ (ihr pre sep n body h2)

theorem specIds_mem_of_enum : ∀ (items : List Item) (pre sep n : String)
    (vs : List (String × String)), enumValuesClean vs = true →
    Item.enum n vs ∈ items → (pre ++ sep ++ n) ∈ specIds items pre sep := by
  intro items
  induction items with
  | nil => intro _ _ _ _ _ h; simp at h
  | cons it rest ihr =>
    intro pre sep n vs hcv h
    rcases List.mem_cons.mp h with heq | h2
    · subst heq
      simp [specIds, specIdsItem, clean_enumInjectedMsgId vs hcv,
        clean_enumEffectiveId n vs hcv]
    · rw [show specIds (it :: rest) pre sep
          = specIdsItem it pre sep ++ specIds rest pre sep
          from by simp [specIds]]
      exact List.mem_append_right _ (ihr pre sep n vs hcv h2)

theorem foldl_extractCmdOneOf_ids (messages : List Message) :
    ∀ (b : List Item) (c : Command),
    ((b.foldl (extractCmdOneOf messages) c).commandId = c.commandId)
    ∧ ((b.foldl (extractCmdOneOf messages) c).serviceId = c.serviceId) := by
  intro b
  induction b with
  | nil => intro c; exact ⟨rfl, rfl⟩
  | cons oi bs ihb =>
    intro c
    rw [List.foldl_cons]
    have hstep : (extractCmdOneOf messages c oi).commandId = c.commandId
        ∧ (extractCmdOneOf messages c oi).serviceId = c.serviceId := by
      cases oi <;> simp [extractCmdOneOf, Command.addOneOf]
    exact ⟨(ihb _).1.trans hstep.1, (ihb _).2.trans hstep.2⟩

theorem extractCmdContent_ids (messages : List Message) :
    ∀ (body : List Item) (cmd : Command),
    ((extractCmdContent body cmd messages).commandId = cmd.commandId)
    ∧ ((extractCmdContent body cmd messages).serviceId = cmd.serviceId) := by
  intro body
  induction body with
  | nil => intro cmd; exact ⟨rfl, rfl⟩
  | cons it rest ihr =>
    intro cmd
    rw [show extractCmdContent (it :: rest) cmd messages
        = extractCmdContent rest (extractCmdStep messages cmd it) messages
        from by simp [extractCmdContent]]
    have hstep : (extractCmdStep messages cmd it).commandId = cmd.commandId
        ∧ (extractCmdStep messages cmd it).serviceId = cmd.serviceId := by
      cases it with
      | oneOf b =>
        simpa [extractCmdStep] using foldl_extractCmdOneOf_ids messages b cmd
      | message n b => simp [extractCmdStep]
      | enum n vs => simp [extractCmdStep]
      | field ty fid fnb => simp [extractCmdStep]
      | package pn => simp [extractCmdStep]
      | other => simp [extractCmdStep]
    exact ⟨(ihr _).1.trans hstep.1, (ihr _).2.trans hstep.2⟩

theorem extractCmdAux_some_ids (name pkg base : String)
    (messages : List Message) :
    ∀ (items : List Item) (acc : Option Command),
    (∀ c', acc = some c' → c'.commandId = base ++ "_" ++ name
      ∧ c'.serviceId = pkg ++ "." ++ name) →
    ∀ c, extractCmdAux name pkg base messages items acc = some c →
    c.commandId = base ++ "_" ++ name ∧ c.serviceId = pkg ++ "." ++ name := by
  intro items
  induction items with
  | nil =>
    intro acc hacc c hc
    rw [show extractCmdAux name pkg base messages [] acc = acc
      from by simp [extractCmdAux]] at hc
    exact hacc c hc
  | cons it rest ihr =>
    intro acc hacc c hc
    cases it with
    | message mid body =>
      by_cases hm : (mid == name) = true
      · have hmid : mid = name := by simpa using hm
        rw [show extractCmdAux name pkg base messages
              (Item.message mid body :: rest) acc
            = extractCmdAux name pkg base messages rest
                (some (extractCmdContent body
                  ⟨base ++ "_" ++ mid, pkg ++ "." ++ mid, []⟩ messages))
            from by simp [extractCmdAux, hm]] at hc
        refine ihr _ ?_ c hc
        intro c' hc'
        have hc'' : c' = extractCmdContent body
            ⟨base ++ "_" ++ mid, pkg ++ "." ++ mid, []⟩ messages := by
          injection hc' with h'
          exact h'.symm
        subst hc''
        subst hmid
        refine ⟨(extractCmdContent_ids messages body _).1.trans rfl,
          (extractCmdContent_ids messages body _).2.trans rfl⟩
      · rw [show extractCmdAux name pkg base messages
              (Item.message mid body :: rest) acc
            = extractCmdAux name pkg base messages rest acc
            from by simp [extractCmdAux, hm]] at hc
        exact ihr _ hacc c hc
    | enum n vs =>
      cases hinj : enumInjectedMsgId vs with
      | none =>
        rw [show extractCmdAux name pkg base messages
              (Item.enum n vs :: rest) acc
            = extractCmdAux name pkg base messages rest acc
            from by simp [extractCmdAux, hinj]] at hc
        exact ihr _ hacc c hc
      | some mid =>
        by_cases hm : (mid == name) = true
        · have hmid : mid = name := by simpa using hm
          rw [show extractCmdAux name pkg base messages
                (Item.enum n vs :: rest) acc
              = extractCmdAux name pkg base messages rest
                  (some ⟨base ++ "_" ++ mid, pkg ++ "." ++ mid, []⟩)
              from by simp [extractCmdAux, hinj, hm]] at hc
          refine ihr _ ?_ c hc
          intro c' hc'
          have hc'' : c' = ⟨base ++ "_" ++ mid, pkg ++ "." ++ mid, []⟩ := by
            injection hc' with h'
            exact h'.symm
          subst hc''
          subst hmid
          exact ⟨rfl, rfl⟩
        · rw [show extractCmdAux name pkg base messages
                (Item.enum n vs :: rest) acc
              = extractCmdAux name pkg base messages rest acc
              from by simp [extractCmdAux, hinj, hm]] at hc
          exact ihr _ hacc c hc
    | oneOf b =>
      rw [show extractCmdAux name pkg base messages (Item.oneOf b :: rest) acc
          = extractCmdAux name pkg base messages rest acc
          from by simp [extractCmdAux]] at hc
      exact ihr _ hacc c hc
    | field ty fid fnb =>
      rw [show extractCmdAux name pkg base messages
            (Item.field ty fid fnb :: rest) acc
          = extractCmdAux name pkg base messages rest acc
          from by simp [extractCmdAux]] at hc
      exact ihr _ hacc c hc
    | package pn =>
      rw [show extractCmdAux name pkg base messages
            (Item.package pn :: rest) acc
          = extractCmdAux name pkg base messages rest acc
          from by simp [extractCmdAux]] at hc
      exact ihr _ hacc c hc
    | other =>
      rw [show extractCmdAux name pkg base messages (Item.other :: rest) acc
          = extractCmdAux name pkg base messages rest acc
          from by simp [extractCmdAux]] at hc
      exact ihr _ hacc c hc

/-- C9 (counterexample): an enum value named `packageName` acts as a
package directive: the schema `enum E { packageName = 7; }`
declares no `package` statement, yet `getPackageName` returns "7" and
the top-level enum is assigned the id `7_E`, not `_E`; similarly an enum
value named `enumId` overrides the declared enum name: for
`enum E { enumId = 5; }` the extracted id is `_5`, not `_E`. -/
theorem c9_no_package_counterexample :
    parseFile ("enum E { packageName = 7; }")
      = Except.ok ([⟨"7_E", []⟩], none, none)
    ∧ getPackageName [Item.enum ("E") [("packageName", "7")]] = "7"
    ∧ parseFile ("enum E { enumId = 5; }")
      = Except.ok ([⟨"_5", []⟩], none, none) :=
  ⟨rfl, rfl, rfl⟩

/-- C9 (amended): when no top-level item carries a `packageName` named
result — neither a package directive nor an enum holding a value named
`packageName` — `getPackageName` and `getBaseName` are both the empty
string, so every top-level message named `n` is assigned the id
`"_" ++ n` (leading underscore), every top-level enum named `n` whose
values avoid the reserved result keys likewise gets `"_" ++ n`, and any
extracted container has `commandId = "_" ++ roleName` and
`serviceId = "." ++ roleName` (leading dot). Without the enum
conditions an enum value named `packageName` or `enumId` changes the
ids (see the counterexample). -/
theorem c9_no_package (items : List Item) (messages : List Message)
    (name : String)
    (hnp : ∀ it ∈ items, isPackageItem it = false) :
    getPackageName items = ""
    ∧ getBaseName items = ""
    ∧ (∀ n body, Item.message n body ∈ items →
        ("_" ++ n) ∈ (extractMessages items (getBaseName items)).map
          Message.id)
    ∧ (∀ n vs, Item.enum n vs ∈ items → enumValuesClean vs = true →
        ("_" ++ n) ∈ (extractMessages items (getBaseName items)).map
          Message.id)
    ∧ (∀ c, extractCmd name items (getPackageName items)
          (getBaseName items) messages = some c →
        c.commandId = "_" ++ name ∧ c.serviceId = "." ++ name) := by
  have hpkg := getPackageName_no_package items hnp
  have hbase := getBaseName_no_package items hnp
  refine ⟨hpkg, hbase, ?_, ?_, ?_⟩
  · intro n body hmem
    rw [hbase, show extractMessages items ""
        = (extractList items [] ("") none).1 from rfl]
    rw [extractList_fst_ids (sizeOf items) items (Nat.le_refl _)]
    simp only [List.map_nil, List.nil_append, ctxPre, ctxSep]
    have := specIds_mem_of_message items ("") ("_") n body hmem
    simpa [show (("" : String) ++ "_") = "_" from rfl] using this
  · intro n vs hmem hcv
    rw [hbase, show extractMessages items ""
        = (extractList items [] ("") none).1 from rfl]
    rw [extractList_fst_ids (sizeOf items) items (Nat.le_refl _)]
    simp only [List.map_nil, List.nil_append, ctxPre, ctxSep]
    have := specIds_mem_of_enum items ("") ("_") n vs hcv hmem
    simpa [show (("" : String) ++ "_") = "_" from rfl] using this
  · intro c hc
    rw [hpkg, hbase] at hc
    have := extractCmdAux_some_ids name ("") ("") messages items none
      (fun c' hc' => by simp at hc') c hc
    constructor
    · have h1 := this.1
      rwa [show (("" : String) ++ "_") = "_" from rfl] at h1
    · have h2 := this.2
      rwa [show (("" : String) ++ ".") = "." from rfl] at h2

/-- C9 (witness): a concrete schema forest without any `packageName`
named result: a top-level `message Command` and a clean `enum E`; ids
`_Command` and `_E`, and the extracted Command container has commandId
`_Command` and serviceId `.Command`. -/
theorem c9_no_package_witness :
    (∀ it ∈ ([Item.message ("Command") [], Item.enum ("E") []] : List Item),
      isPackageItem it = false)
    ∧ (getPackageName [Item.message ("Command") [], Item.enum ("E") []] = ""
      ∧ getBaseName [Item.message ("Command") [], Item.enum ("E") []] = ""
      ∧ (∀ n body, Item.message n body
            ∈ ([Item.message ("Command") [], Item.enum ("E") []]
              : List Item) →
          ("_" ++ n) ∈ (extractMessages
            [Item.message ("Command") [], Item.enum ("E") []]
            (getBaseName [Item.message ("Command") [],
              Item.enum ("E") []])).map Message.id)
      ∧ (∀ n vs, Item.enum n vs
            ∈ ([Item.message ("Command") [], Item.enum ("E") []]
              : List Item) →
          enumValuesClean vs = true →
          ("_" ++ n) ∈ (extractMessages
            [Item.message ("Command") [], Item.enum ("E") []]
            (getBaseName [Item.message ("Command") [],
              Item.enum ("E") []])).map Message.id)
      ∧ (∀ c, extractCmd ("Command")
            [Item.message ("Command") [], Item.enum ("E") []]
            (getPackageName [Item.message ("Command") [],
              Item.enum ("E") []])
            (getBaseName [Item.message ("Command") [],
              Item.enum ("E") []])
            [] = some c →
          c.commandId = "_" ++ ("Command")
            ∧ c.serviceId = "." ++ ("Command"))) :=
  ⟨by decide, c9_no_package _ _ _ (by decide)⟩

theorem fieldsGet_dictInsert (k' v k : String) :
    ∀ (acc : List (String × String)),
    fieldsGet (dictInsert acc k' v) k
      = if k' == k then some v else fieldsGet acc k := by
  intro acc
  induction acc with
  | nil =>
    by_cases h : k' = k <;>
      simp [dictInsert, fieldsGet, List.find?_cons, h]
  | cons hd rest ihacc =>
    obtain ⟨a, b⟩ := hd
    by_cases hak : a = k'
    · subst hak
      by_cases hk : a = k <;>
        simp [dictInsert, fieldsGet, List.find?_cons, hk]
    · have hak' : (a == k') = false := by simp [hak]
      by_cases hk : a = k
      · subst hk
        have hk' : (k' == a) = false := by
          simp
          intro he
          exact hak he.symm
        simp [dictInsert, hak', fieldsGet, List.find?_cons, hk']
      · have h2 : (a == k) = false := by simp [hk]
        simp only [dictInsert, hak', Bool.false_eq_true, if_false]
        rw [show fieldsGet ((a, b) :: dictInsert rest k' v) k
            = fieldsGet (dictInsert rest k' v) k from by
          simp [fieldsGet, List.find?_cons, h2]]
        rw [show fieldsGet ((a, b) :: rest) k = fieldsGet rest k from by
          simp [fieldsGet, List.find?_cons, h2]]
        exact ihacc

theorem dictInsert_length (k v : String) :
    ∀ (acc : List (String × String)),
    (dictInsert acc k v).length
      = if fieldsGet acc k = none then acc.length + 1 else acc.length := by
  intro acc
  induction acc with
  | nil => simp [dictInsert, fieldsGet]
  | cons hd rest ihacc =>
    obtain ⟨a, b⟩ := hd
    by_cases hak : a = k
    · subst hak
      simp [dictInsert, fieldsGet, List.find?_cons]
    · have h2 : (a == k) = false := by simp [hak]
      simp only [dictInsert, h2, Bool.false_eq_true, if_false]
      rw [show fieldsGet ((a, b) :: rest) k = fieldsGet rest k from by
        simp [fieldsGet, List.find?_cons, h2]]
      simp only [List.length_cons, ihacc]
      by_cases hn : fieldsGet rest k = none <;> simp [hn]

theorem directFields_foldl : ∀ (kk : Nat) (items : List Item),
    sizeOf items ≤ kk →
    ∀ (acc : List (String × String)),
    directFields items acc = (fieldDefs items).foldl dictInsertPair acc := by
  intro kk
  induction kk with
  | zero =>
    intro items h
    have hpos : 0 < sizeOf items := by cases items <;> simp
    omega
  | succ kk ih =>
    intro items h acc
    cases items with
    | nil => simp [directFields, fieldDefs]
    | cons it rest =>
      cases it with
      | message n body =>
        have hr : sizeOf rest ≤ kk := by simp at h; omega
        simp only [directFields, directFieldsItem, fieldDefs, fieldDefsItem,
          List.nil_append]
        exact ih rest hr acc
      | enum n vs =>
        have hr : sizeOf rest ≤ kk := by simp at h; omega
        simp only [directFields, directFieldsItem, fieldDefs, fieldDefsItem,
          List.nil_append]
        exact ih rest hr acc
      | oneOf body =>
        have hb : sizeOf body ≤ kk := by simp at h; omega
        have hr : sizeOf rest ≤ kk := by simp at h; omega
        simp only [directFields, directFieldsItem, fieldDefs, fieldDefsItem]
        rw [ih rest hr, ih body hb, List.foldl_append]
      | field ty fid fnb =>
        have hr : sizeOf rest ≤ kk := by simp at h; omega
        simp only [directFields, directFieldsItem, fieldDefs, fieldDefsItem,
          List.singleton_append, List.foldl_cons]
        exact ih rest hr _
      | package pn =>
        have hr : sizeOf rest ≤ kk := by simp at h; omega
        simp only [directFields, directFieldsItem, fieldDefs, fieldDefsItem,
          List.nil_append]
        exact ih rest hr acc
      | other =>
        have hr : sizeOf rest ≤ kk := by simp at h; omega
        simp only [directFields, directFieldsItem, fieldDefs, fieldDefsItem,
          List.nil_append]
        exact ih rest hr acc

theorem fieldsGet_foldl_lastVal (k : String) :
    ∀ (l : List (String × String)) (acc : List (String × String)),
    fieldsGet (l.foldl dictInsertPair acc) k
      = match lastVal l k with
        | some v => some v
        | none => fieldsGet acc k := by
  intro l
  induction l with
  | nil => intro acc; simp [lastVal]
  | cons pr rest ihl =>
    intro acc
    rw [List.foldl_cons, ihl]
    rw [show lastVal (pr :: rest) k
        = match lastVal rest k with
          | some v => some v
          | none => if pr.1 == k then some pr.2 else none
        from by simp [lastVal]]
    cases h : lastVal rest k with
    | some v => simp
    | none =>
      simp only []
      rw [show dictInsertPair acc pr = dictInsert acc pr.1 pr.2 from rfl]
      rw [fieldsGet_dictInsert]
      by_cases hk : (pr.1 == k) = true <;> simp [hk]

theorem foldl_dictInsertPair_length :
    ∀ (l : List (String × String)) (acc : List (String × String)),
    (l.foldl dictInsertPair acc).length ≤ acc.length + l.length := by
  intro l
  induction l with
  | nil => intro acc; simp
  | cons pr rest ihl =>
    intro acc
    rw [List.foldl_cons]
    have h1 := ihl (dictInsertPair acc pr)
    have h2 : (dictInsertPair acc pr).length ≤ acc.length + 1 := by
      rw [show dictInsertPair acc pr = dictInsert acc pr.1 pr.2 from rfl]
      rw [dictInsert_length]
      by_cases hn : fieldsGet acc pr.1 = none <;> simp [hn]
    simp only [List.length_cons]
    omega

theorem fieldsGet_foldl_some (k : String) :
    ∀ (l : List (String × String)) (acc : List (String × String)),
    fieldsGet acc k ≠ none →
    fieldsGet (l.foldl dictInsertPair acc) k ≠ none := by
  intro l
  induction l with
  | nil => intro acc h; simpa using h
  | cons pr rest ihl =>
    intro acc h
    rw [List.foldl_cons]
    refine ihl _ ?_
    rw [show dictInsertPair acc pr = dictInsert acc pr.1 pr.2 from rfl]
    rw [fieldsGet_dictInsert]
    by_cases hk : (pr.1 == k) = true <;> simp [hk, h]

theorem fieldsGet_foldl_mem (k : String) :
    ∀ (l : List (String × String)) (acc : List (String × String)),
    (∃ pr ∈ l, (pr.1 == k) = true) →
    fieldsGet (l.foldl dictInsertPair acc) k ≠ none := by
  intro l
  induction l with
  | nil => intro acc h; simp at h
  | cons pr rest ihl =>
    intro acc ⟨x, hx, hpx⟩
    rcases List.mem_cons.mp hx with rfl | hx2
    · rw [List.foldl_cons]
      refine fieldsGet_foldl_some k rest _ ?_
      rw [show dictInsertPair acc x = dictInsert acc x.1 x.2 from rfl]
      rw [fieldsGet_dictInsert]
      simp [hpx]
    · rw [List.foldl_cons]
      exact ihl _ ⟨x, hx2, hpx⟩

theorem foldl_dictInsertPair_length_lt (l₁ l₂ : List (String × String))
    (x : String × String) (name : String) (hx : (x.1 == name) = true)
    (hmem : ∃ pr ∈ l₁, (pr.1 == name) = true) :
    ((l₁ ++ x :: l₂).foldl dictInsertPair []).length
      < (l₁ ++ x :: l₂).length := by
  rw [List.foldl_append, List.foldl_cons]
  have h1 : (l₁.foldl dictInsertPair []).length ≤ l₁.length := by
    simpa using foldl_dictInsertPair_length l₁ []
  have hx1 : x.1 = name := by simpa using hx
  have hpres : fieldsGet (l₁.foldl dictInsertPair []) x.1 ≠ none := by
    rw [hx1]
    exact fieldsGet_foldl_mem name l₁ [] hmem
  have h2 : (dictInsertPair (l₁.foldl dictInsertPair []) x).length
      = (l₁.foldl dictInsertPair []).length := by
    rw [show dictInsertPair (l₁.foldl dictInsertPair []) x
        = dictInsert (l₁.foldl dictInsertPair []) x.1 x.2 from rfl]
    rw [dictInsert_length]
    simp [hpres]
  have h3 := foldl_dictInsertPair_length l₂
    (dictInsertPair (l₁.foldl dictInsertPair []) x)
  rw [h2] at h3
  simp only [List.length_append, List.length_cons]
  omega

theorem filter_one_split {α : Type} (p : α → Bool) :
    ∀ (l : List α), 1 ≤ (l.filter p).length →
    ∃ l₁ x l₂, l = l₁ ++ x :: l₂ ∧ p x = true := by
  intro l h
  have hne : l.filter p ≠ [] := by
    intro he
    rw [he] at h
    simp at h
  obtain ⟨x, hx⟩ := List.exists_mem_of_ne_nil _ hne
  have hx2 := List.mem_filter.mp hx
  obtain ⟨l₁, l₂, rfl⟩ := List.append_of_mem hx2.1
  exact ⟨l₁, x, l₂, rfl, hx2.2⟩

theorem filter_two_split {α : Type} (p : α → Bool) :
    ∀ (l : List α), 2 ≤ (l.filter p).length →
    ∃ l₁ x l₂, l = l₁ ++ x :: l₂ ∧ p x = true
      ∧ ∃ y ∈ l₁, p y = true := by
  intro l
  induction l with
  | nil => intro h; simp at h
  | cons a rest ihl =>
    intro h
    by_cases hpa : p a = true
    · have h1 : 1 ≤ (rest.filter p).length := by
        rw [List.filter_cons, if_pos hpa] at h
        simp at h
        omega
      obtain ⟨t₁, x, t₂, rfl, hpx⟩ := filter_one_split p rest h1
      exact ⟨a :: t₁, x, t₂, rfl, hpx, a, List.mem_cons_self _ _, hpa⟩
    · have hpa' : p a = false := by
        cases hb : p a
        · rfl
        · exact absurd hb hpa
      have h2 : 2 ≤ (rest.filter p).length := by
        rw [List.filter_cons, hpa'] at h
        simpa using h
      obtain ⟨l₁, x, l₂, rfl, hpx, y, hy, hpy⟩ := ihl h2
      exact ⟨a :: l₁, x, l₂, rfl, hpx, y, List.mem_cons_of_mem _ hy, hpy⟩

/-- C10 (counterexample): with a duplicated field name the final dict
need not be strictly smaller than the number of field DEFINITIONS once
an enum injects an extra entry: in `message M { int32 x = 1;
int32 x = 2; enum E { fieldId = 3; fieldNumber = 9; } }` the
body holds two field definitions (both named `x`), yet the final fields
dict of `_M` has size 2 — the enum value pair `("3", "9")` is written
into the dict although it is no field definition. -/
theorem c10_counterexample :
    parseFile ("message M { int32 x = 1; int32 x = 2; enum E { fieldId = 3; fieldNumber = 9; } }")
      = Except.ok ([⟨"_M.E", []⟩, ⟨"_M", [("x", "2"), ("3", "9")]⟩],
          none, none)
    ∧ (fieldDefs [Item.field ("int32") ("x") ("1"),
        Item.field ("int32") ("x") ("2"),
        Item.enum ("E") [("fieldId", "3"), ("fieldNumber", "9")]]).length
      = 2
    ∧ ¬ (([("x", "2"), ("3", "9")] : List (String × String)).length < 2) :=
  ⟨rfl, rfl, by decide⟩

/-- C10 (amended): provided no enum in the body (recursively through
`oneof` bodies) carries injected `fieldId`/`fieldNumber` named results
(`fieldsClean`), when the field declarations of a message body (directly
or through merged `oneof` bodies) contain the same field name at least
twice, the parent message's final fields dict silently keeps the LAST
declaration's number for that name (dict assignment overwrites), and the
dict's size is strictly smaller than the number of field declarations.
Without the `fieldsClean` condition an enum-injected entry can pad the
dict back up to the declaration count (see the counterexample). -/
theorem c10_duplicate_field_last_wins (items : List Item)
    (msgs : List Message) (base pid name : String)
    (hcl : fieldsClean items = true)
    (hdup : 2 ≤ ((fieldDefs items).filter
      (fun pr => pr.1 == name)).length) :
    (extractList items msgs base (some ⟨pid, []⟩)).2
      = some ⟨pid, directFields items []⟩
    ∧ fieldsGet (directFields items []) name
      = lastVal (fieldDefs items) name
    ∧ (directFields items []).length < (fieldDefs items).length := by
  have he := fieldsClean_updFields (sizeOf items) items (Nat.le_refl _) hcl
  refine ⟨?_, ?_, ?_⟩
  · rw [extractList_snd (sizeOf items) items (Nat.le_refl _)]
    simp [updParent, he]
  · rw [directFields_foldl (sizeOf items) items (Nat.le_refl _)]
    rw [fieldsGet_foldl_lastVal]
    cases h : lastVal (fieldDefs items) name <;>
      simp [fieldsGet, List.find?]
  · rw [directFields_foldl (sizeOf items) items (Nat.le_refl _)]
    obtain ⟨l₁, x, l₂, heq, hx, y, hy, hpy⟩ :=
      filter_two_split _ (fieldDefs items) hdup
    rw [heq]
    exact foldl_dictInsertPair_length_lt l₁ l₂ x name hx ⟨y, hy, hpy⟩

/-- C10 (witness): the declarations `int32 x = 1;` and, inside a
`oneof`, `int32 x = 2;` give a fields dict of size 1 < 2 that maps `x`
to `2`. -/
theorem c10_witness :
    fieldsClean [Item.field ("int32") ("x") ("1"),
        Item.oneOf [Item.field ("int32") ("x") ("2")]] = true
    ∧ 2 ≤ ((fieldDefs [Item.field ("int32") ("x") ("1"),
          Item.oneOf [Item.field ("int32") ("x") ("2")]]).filter
            (fun pr => pr.1 == ("x"))).length
    ∧ ((extractList [Item.field ("int32") ("x") ("1"),
          Item.oneOf [Item.field ("int32") ("x") ("2")]] [] ("M")
          (some ⟨"M_A", []⟩)).2
        = some ⟨"M_A", directFields [Item.field ("int32") ("x") ("1"),
            Item.oneOf [Item.field ("int32") ("x") ("2")]] []⟩
      ∧ fieldsGet (directFields [Item.field ("int32") ("x") ("1"),
            Item.oneOf [Item.field ("int32") ("x") ("2")]] []) ("x")
          = lastVal (fieldDefs [Item.field ("int32") ("x") ("1"),
              Item.oneOf [Item.field ("int32") ("x") ("2")]]) ("x")
      ∧ (directFields [Item.field ("int32") ("x") ("1"),
            Item.oneOf [Item.field ("int32") ("x") ("2")]] []).length
          < (fieldDefs [Item.field ("int32") ("x") ("1"),
              Item.oneOf [Item.field ("int32") ("x") ("2")]]).length) :=
  ⟨by decide, by decide,
    c10_duplicate_field_last_wins _ _ _ _ _ (by decide) (by decide)⟩

end ArsdkProto
